import Mathlib

/-! # Karen script transliterator (`src/index.js`)

A shallow embedding of `transliterate` and of the syllable pattern `regex`.

JavaScript strings are modelled as lists of characters.  Every character of the
pattern and every white-space character of `\s` and `trim()` lies in the Basic
Multilingual Plane, so the code-unit based matching, `slice`, `length` and
offsets of the source act on a well-formed string exactly as the definitions
below act on its list of code points.

The mapping tables come from `karen-language-mapping.json`, which is not part of
the sources; they are a parameter of the model.  A table is a partial function
from a grapheme to a string (the values are strings, as in the data model of the
specification), `none` standing for JavaScript's `undefined`.
-/

namespace Karen

/-- A JavaScript string. -/
abbrev JsString := List Char

/-- The four lookup tables of `mapping`; `none` is a missing key (`undefined`). -/
structure Mapping where
  consonants : JsString → Option JsString
  medials : JsString → Option JsString
  vowels : JsString → Option JsString
  tone : JsString → Option JsString

/-! ## The pattern -/

/-- Group 1 of `regex`: the 25 consonant alternatives, in source order. -/
def consonantAlts : List JsString :=
  [['က'], ['ခ'], ['ဂ'], ['ဃ'], ['င'], ['စ'], ['ဆ'],
   ['ၡ'], ['ည'], ['တ'], ['ထ'], ['ဒ'], ['န'], ['ပ'],
   ['ဖ'], ['ဘ'], ['မ'], ['ယ'], ['ရ'], ['လ'], ['ဝ'],
   ['သ'], ['ဟ'], ['အ'], ['ဧ']]

/-- Group 2 of `regex`: the medial alternatives, in source order. -/
def medialAlts : List JsString :=
  [['ှ'], ['ၠ'], ['ြ'], ['ျ'], ['ွ']]

/-- Group 3 of `regex`: the vowel alternatives, in source order. -/
def vowelAlts : List JsString :=
  [['ါ'], ['ံ'], ['ၢ'], ['ု'], ['ူ'], ['့'], ['ဲ'],
   ['ိ'], ['ီ']]

/-- Group 4 of `regex`: the tone alternatives, in source order. -/
def toneAlts : List JsString :=
  [['ၢ', '်'], ['ာ', '်'], ['း'], ['ၣ', '်'],
   ['ၤ'], ['်']]

/-- The open-a vowel, the string literal compared with `vowel` in the source. -/
def openA : JsString := ['ၢ']

/-- The generic tone marker, the string literal compared with `tone` in the source. -/
def genericTone : JsString := ['်']

/-- An alternation `a|b|...` tried at the head of `s`: the first alternative, in
source order, that is a prefix of `s`, together with the text after it. -/
def matchAlt : List JsString → JsString → Option (JsString × JsString)
  | [], _ => none
  | a :: rest, s =>
    if a.isPrefixOf s then some (a, s.drop a.length) else matchAlt rest s

/-- A greedy optional group `(a|b|...)?`: it takes the first alternative that
matches and is `undefined` (`none`) otherwise.  Everything that follows such a
group in `regex` is optional as well, so the rest of the pattern never fails and
the first choice is never undone. -/
def matchOpt (alts : List JsString) (s : JsString) : Option JsString × JsString :=
  match matchAlt alts s with
  | some (a, rest) => (some a, rest)
  | none => (none, s)

/-- The arguments the callback of `input.replace(regex, ...)` receives. -/
structure SyllableMatch where
  matched : JsString
  consonant : Option JsString
  medial : Option JsString
  vowel : Option JsString
  tone : Option JsString
  offset : Nat
  deriving DecidableEq, Repr

/-- The text of an optional capture inside the whole match. -/
def captureText (c : Option JsString) : JsString := c.getD []

/-- One attempt of `regex` at the head of `s`, which sits at index `offset` of
the input: the match and the text after it. -/
def matchHere (s : JsString) (offset : Nat) : Option (SyllableMatch × JsString) :=
  match matchAlt consonantAlts s with
  | none => none
  | some (c, r1) =>
    let m := matchOpt medialAlts r1
    let v := matchOpt vowelAlts m.2
    let t := matchOpt toneAlts v.2
    some ({ matched := c ++ captureText m.1 ++ captureText v.1 ++ captureText t.1,
            consonant := some c, medial := m.1, vowel := v.1, tone := t.1,
            offset := offset }, t.2)

/-- The successive matches of the global `regex` on the text `s` that starts at
index `pos`: the leftmost match is taken and the search resumes at its end.
`fuel` bounds the number of steps. -/
def execAll : Nat → JsString → Nat → List SyllableMatch
  | 0, _, _ => []
  | _ + 1, [], _ => []
  | fuel + 1, x :: xs, pos =>
    match matchHere (x :: xs) pos with
    | some (m, _) =>
      m :: execAll fuel ((x :: xs).drop m.matched.length) (pos + m.matched.length)
    | none => execAll fuel xs (pos + 1)

/-- All matches of `regex` in `input`, in order.  Every step consumes at least
one character, so the length of the input is enough fuel. -/
def regexMatches (input : JsString) : List SyllableMatch :=
  execAll input.length input 0

/-! ## JavaScript values -/

/-- Truthiness of a string-or-undefined value: a non-empty string. -/
def truthy : Option JsString → Bool
  | some (_ :: _) => true
  | _ => false

/-- The text `result += x` appends: `undefined` is rendered as "undefined". -/
def toJsString : Option JsString → JsString
  | some s => s
  | none => ['u', 'n', 'd', 'e', 'f', 'i', 'n', 'e', 'd']

/-- Property access `table[key]`; an `undefined` key is the key "undefined". -/
def lookup (table : JsString → Option JsString) (key : Option JsString) : Option JsString :=
  table (toJsString key)

/-- The text of `input.slice(a, b)` for indices within the string. -/
def slice (s : JsString) (a b : Nat) : JsString := (s.drop a).take (b - a)

/-! ## White space -/

/-- The characters matched by `\s` and stripped by `trim()`. -/
def isWhiteSpace (c : Char) : Bool :=
  c.toNat ∈ [0x09, 0x0A, 0x0B, 0x0C, 0x0D, 0x20, 0xA0, 0x1680, 0x2028, 0x2029, 0x202F,
    0x205F, 0x3000, 0xFEFF] || (0x2000 ≤ c.toNat && c.toNat ≤ 0x200A)

/-- Worker of `replaceWhiteSpace`; `inRun` says that the previous character was
white space, whose run has already been replaced. -/
def replaceWhiteSpaceFrom : Bool → JsString → JsString
  | _, [] => []
  | inRun, c :: cs =>
    if isWhiteSpace c then
      if inRun then replaceWhiteSpaceFrom true cs else ' ' :: replaceWhiteSpaceFrom true cs
    else c :: replaceWhiteSpaceFrom false cs

/-- The text of `s.replace(/\s+/g, " ")`: each maximal run of white space becomes
one space. -/
def replaceWhiteSpace (s : JsString) : JsString := replaceWhiteSpaceFrom false s

/-- The text of `s.trim()`. -/
def trim (s : JsString) : JsString := (s.dropWhile isWhiteSpace).rdropWhile isWhiteSpace

/-- The last line of `transliterate`: `.replace(/\s+/g, " ").trim()`. -/
def normalise (s : JsString) : JsString := trim (replaceWhiteSpace s)

/-- The text of `output.join(" ")`. -/
def joinSpace (output : List JsString) : JsString := [' '].intercalate output

/-! ## The transliteration -/

/-- The Latin text of one syllable: the `result` built by the callback. -/
def resolve (M : Mapping) (consonant medial vowel tone : Option JsString) : JsString :=
  let result : JsString := []
  let result :=
    if truthy consonant && truthy (lookup M.consonants consonant) then
      result ++ toJsString (lookup M.consonants consonant)
    else result
  let result :=
    if truthy medial && truthy (lookup M.medials medial) then
      result ++ toJsString (lookup M.medials medial)
    else result
  let result :=
    if truthy vowel && vowel != some openA then
      result ++ toJsString (lookup M.vowels vowel)
    else if truthy vowel && vowel == some openA && truthy tone && tone == some genericTone then
      result ++ ['a', 'h']
    else if truthy consonant && !truthy vowel && (truthy tone && tone != some genericTone) then
      result ++ ['a']
    else if truthy vowel && vowel == some openA then
      result ++ toJsString (lookup M.vowels vowel)
    else result
  let result :=
    if truthy tone && (lookup M.tone tone).isSome then
      result ++ toJsString (lookup M.tone tone)
    else if truthy tone && tone == some genericTone && !truthy vowel then
      result ++ ['e', 'e']
    else result
  result

/-- A guarded step of the callback, `if (g && table[g]) result += table[g]`:
the text it appends. -/
def slotPart (table : JsString → Option JsString) (g : Option JsString) : JsString :=
  if truthy g && truthy (lookup table g) then toJsString (lookup table g) else []

/-- The text appended by the vowel ladder of the callback. -/
def vowelPart (M : Mapping) (consonant vowel tone : Option JsString) : JsString :=
  if truthy vowel && vowel != some openA then toJsString (lookup M.vowels vowel)
  else if truthy vowel && vowel == some openA && truthy tone && tone == some genericTone then
    ['a', 'h']
  else if truthy consonant && !truthy vowel && (truthy tone && tone != some genericTone) then
    ['a']
  else if truthy vowel && vowel == some openA then toJsString (lookup M.vowels vowel)
  else []

/-- The text appended by the tone step of the callback. -/
def tonePart (M : Mapping) (vowel tone : Option JsString) : JsString :=
  if truthy tone && (lookup M.tone tone).isSome then toJsString (lookup M.tone tone)
  else if truthy tone && tone == some genericTone && !truthy vowel then ['e', 'e']
  else []

/-- The variables `output` and `lastIndex` of `transliterate`. -/
structure ScanState where
  output : List JsString
  lastIndex : Nat

/-- The callback passed to `input.replace`, as a step on `output` and `lastIndex`. -/
def callback (M : Mapping) (input : JsString) (st : ScanState) (m : SyllableMatch) :
    ScanState :=
  let output :=
    if m.offset > st.lastIndex then st.output ++ [slice input st.lastIndex m.offset]
    else st.output
  { output := output ++ [resolve M m.consonant m.medial m.vowel m.tone],
    lastIndex := m.offset + m.matched.length }

/-- The function `transliterate` of `src/index.js`. -/
def transliterate (M : Mapping) (input : JsString) : JsString :=
  let st := (regexMatches input).foldl (callback M input) { output := [], lastIndex := 0 }
  let output :=
    if st.lastIndex < input.length then st.output ++ [input.drop st.lastIndex]
    else st.output
  normalise (joinSpace output)

/-! ## Vocabulary of the statements -/

/-- The two-character tone alternative that starts with the open-a grapheme. -/
def openATone : JsString := ['ၢ', '်']

/-- An optional slot filled, if at all, from the alternatives `alts`. -/
def slotFrom (alts : List JsString) (o : Option JsString) : Prop := ∀ x ∈ o, x ∈ alts

instance (alts : List JsString) (o : Option JsString) : Decidable (slotFrom alts o) :=
  inferInstanceAs (Decidable (∀ x ∈ o, x ∈ alts))

/-- The text `k` is the table value of an optional grapheme: the entry of a
grapheme that is present, the empty text for an absent one. -/
def entryOf (table : JsString → Option JsString) (o : Option JsString) (k : JsString) :
    Prop :=
  match o with
  | none => k = []
  | some g => table g = some k

instance (table : JsString → Option JsString) (o : Option JsString) (k : JsString) :
    Decidable (entryOf table o k) :=
  match o with
  | none => inferInstanceAs (Decidable (k = []))
  | some g => inferInstanceAs (Decidable (table g = some k))

/-- The non-generic tone markers that can directly follow a consonant. -/
def directTones : List JsString := [['း'], ['ၤ'], ['ာ', '်'], ['ၣ', '်']]

/-- What a slot contributes when a lookup miss counts as the empty string: nothing
for an absent grapheme or a missing entry, the table value otherwise. -/
def contribution (table : JsString → Option JsString) (key : Option JsString) : JsString :=
  match key with
  | none => []
  | some g => (table g).getD []

/-- The text is ASCII: every character is below U+0080. -/
def asciiText (s : JsString) : Prop := ∀ c ∈ s, c.toNat < 128

instance (s : JsString) : Decidable (asciiText s) :=
  inferInstanceAs (Decidable (∀ c ∈ s, c.toNat < 128))

/-! ## Words of a text -/

/-- The text starts with a character that is not white space. -/
def startsInk : JsString → Bool
  | [] => false
  | d :: _ => !isWhiteSpace d

/-- A character put in front of the first word of a list of words. -/
def consWord (c : Char) : List JsString → List JsString
  | [] => [[c]]
  | w :: ws => (c :: w) :: ws

/-- The words of a text: its maximal runs of characters that are not white space,
in order. -/
def words : JsString → List JsString
  | [] => []
  | c :: cs =>
    if isWhiteSpace c then words cs
    else if startsInk cs then consWord c (words cs)
    else [c] :: words cs

/-! ## The scan as a list of segments -/

/-- The variables `output` and `lastIndex` when `input.replace` has run. -/
def scanEnd (M : Mapping) (input : JsString) : ScanState :=
  (regexMatches input).foldl (callback M input) { output := [], lastIndex := 0 }

/-- The text that remains after the last match, `input.slice(lastIndex)`; the whole
input when nothing matches. -/
def remainingText (M : Mapping) (input : JsString) : JsString :=
  input.drop (scanEnd M input).lastIndex

/-- The last step before the join: the remaining text, if any, is pushed. -/
def finishOutput (input : JsString) (st : ScanState) : List JsString :=
  if st.lastIndex < input.length then st.output ++ [input.drop st.lastIndex] else st.output

/-- The array `output` at the moment it is joined. -/
def outputOf (M : Mapping) (input : JsString) : List JsString :=
  finishOutput input (scanEnd M input)

/-- The segment pushed for the unmatched text `gap`: nothing when it is empty. -/
def flush (gap : JsString) : List JsString := if gap = [] then [] else [gap]

/-- The segments pushed while the text `s` is scanned, `gap` being the unmatched
text met since the last match.  With fuel of at least the length of `s` this is
the `output` of the source, without offsets. -/
def segments (M : Mapping) : Nat → JsString → JsString → List JsString
  | 0, s, gap => flush (gap ++ s)
  | _ + 1, [], gap => flush gap
  | fuel + 1, x :: xs, gap =>
    match matchHere (x :: xs) 0 with
    | some (m, r) =>
      flush gap ++ resolve M m.consonant m.medial m.vowel m.tone :: segments M fuel r []
    | none => segments M fuel xs (gap ++ [x])

/-! ## Sample tables used by the concrete instances -/

/-- A small partial table: one consonant, one medial, one vowel and one tone. -/
def sampleMapping : Mapping where
  consonants := fun k => if k = ['က'] then some ['k'] else none
  medials := fun k => if k = ['ှ'] then some ['h'] else none
  vowels := fun k => if k = ['ါ'] then some ['a', 'r'] else none
  tone := fun k => if k = ['း'] then some ['h'] else none

/-- The table `sampleMapping` with an entry "x" for the generic tone marker. -/
def toneMapping : Mapping where
  consonants := sampleMapping.consonants
  medials := sampleMapping.medials
  vowels := sampleMapping.vowels
  tone := fun k => if k = genericTone then some ['x'] else sampleMapping.tone k

/-- The table `sampleMapping` with the entry "aw" for the open-a vowel. -/
def openAMapping : Mapping where
  consonants := sampleMapping.consonants
  medials := sampleMapping.medials
  vowels := fun k => if k = openA then some ['a', 'w'] else sampleMapping.vowels k
  tone := sampleMapping.tone

/-- The table `sampleMapping` with the entry "y" for the two-character tone "ၢ်". -/
def openAToneMapping : Mapping where
  consonants := sampleMapping.consonants
  medials := sampleMapping.medials
  vowels := sampleMapping.vowels
  tone := fun k => if k = openATone then some ['y'] else sampleMapping.tone k

/-- The table `sampleMapping` with the entry "kh" for the consonant "ခ". -/
def pairMapping : Mapping where
  consonants := fun k => if k = ['ခ'] then some ['k', 'h'] else sampleMapping.consonants k
  medials := sampleMapping.medials
  vowels := sampleMapping.vowels
  tone := sampleMapping.tone

/-! ## The vowel ladder, branch by branch -/

/-- Guard of the branch that appends "ah" (lines 42-44; Special case A). -/
def guardA (vowel tone : Option JsString) : Bool :=
  truthy vowel && vowel == some openA && truthy tone && tone == some genericTone

/-- Guard of the branch for a vowel other than open-a (lines 39-41; Special case B). -/
def guardB (vowel : Option JsString) : Bool :=
  truthy vowel && vowel != some openA

/-- Guard of the branch that appends "a" (lines 45-48; Special case C). -/
def guardC (consonant vowel tone : Option JsString) : Bool :=
  truthy consonant && !truthy vowel && (truthy tone && tone != some genericTone)

/-- Guard of the last branch (lines 49-52; Special case D). -/
def guardD (vowel : Option JsString) : Bool :=
  truthy vowel && vowel == some openA

/-- The four branches of the vowel ladder with the guards of the code, checked in
the order of the specification: A, B, C, D. -/
def vowelPartSpecOrder (M : Mapping) (consonant vowel tone : Option JsString) : JsString :=
  if guardA vowel tone then ['a', 'h']
  else if guardB vowel then toJsString (lookup M.vowels vowel)
  else if guardC consonant vowel tone then ['a']
  else if guardD vowel then toJsString (lookup M.vowels vowel)
  else []


/-! ## Lemmas on the pattern -/

theorem matchAlt_singletons (alts : List JsString) (h : ∀ a ∈ alts, a.length = 1)
    (x : Char) (xs : JsString) :
    matchAlt alts (x :: xs) = if [x] ∈ alts then some ([x], xs) else none := by
  induction alts with
  | nil => simp [matchAlt]
  | cons a rest ih =>
    have ha : a.length = 1 := h a (List.mem_cons_self _ _)
    have hrest : ∀ b ∈ rest, b.length = 1 := fun b hb => h b (List.mem_cons_of_mem _ hb)
    obtain ⟨y, rfl⟩ := List.length_eq_one.mp ha
    by_cases hxy : y = x
    · subst hxy
      simp [matchAlt, List.isPrefixOf]
    · have hne : ¬ x = y := fun e => hxy e.symm
      simp [matchAlt, List.isPrefixOf, hxy, hne, ih hrest]

theorem matchAlt_nil (alts : List JsString) (h : ∀ a ∈ alts, a ≠ []) :
    matchAlt alts [] = none := by
  induction alts with
  | nil => rfl
  | cons a rest ih =>
    have ha : a ≠ [] := h a (List.mem_cons_self _ _)
    cases a with
    | nil => exact absurd rfl ha
    | cons y ys =>
      simp only [matchAlt, List.isPrefixOf]
      exact ih (fun b hb => h b (List.mem_cons_of_mem _ hb))

theorem consonantAlts_length : ∀ a ∈ consonantAlts, a.length = 1 := by decide

theorem medialAlts_length : ∀ a ∈ medialAlts, a.length = 1 := by decide

theorem vowelAlts_length : ∀ a ∈ vowelAlts, a.length = 1 := by decide

theorem matchHere_none (x : Char) (xs : JsString) (pos : Nat) (h : [x] ∉ consonantAlts) :
    matchHere (x :: xs) pos = none := by
  simp [matchHere, matchAlt_singletons consonantAlts consonantAlts_length, h]

theorem execAll_no_consonant (fuel : Nat) (s : JsString) (pos : Nat)
    (h : ∀ x ∈ s, [x] ∉ consonantAlts) : execAll fuel s pos = [] := by
  induction fuel generalizing s pos with
  | zero => rfl
  | succ fuel ih =>
    cases s with
    | nil => rfl
    | cons x xs =>
      have hx : [x] ∉ consonantAlts := h x (List.mem_cons_self _ _)
      simp only [execAll, matchHere_none x xs pos hx]
      exact ih xs (pos + 1) (fun y hy => h y (List.mem_cons_of_mem _ hy))

theorem joinSpace_singleton (s : JsString) : joinSpace [s] = s := by
  simp [joinSpace, List.intercalate]

theorem execAll_nil (fuel pos : Nat) : execAll fuel [] pos = [] := by
  cases fuel <;> rfl

theorem matchHere_offset (s : JsString) (pos : Nat) (m : SyllableMatch) (r : JsString)
    (h : matchHere s pos = some (m, r)) : m.offset = pos := by
  unfold matchHere at h
  split at h
  · exact absurd h (by simp)
  · simp only [Option.some.injEq, Prod.mk.injEq] at h
    rw [← h.1]

/-- An input that is one match from its first to its last character is rendered
as the normalised `result` of that match. -/
theorem transliterate_single (M : Mapping) (x : Char) (xs : JsString) (m : SyllableMatch)
    (h : matchHere (x :: xs) 0 = some (m, []))
    (hlen : m.matched.length = (x :: xs).length) :
    transliterate M (x :: xs) = normalise (resolve M m.consonant m.medial m.vowel m.tone) := by
  have hoff : m.offset = 0 := matchHere_offset _ _ _ _ h
  unfold transliterate regexMatches
  simp only [List.length_cons, execAll, h]
  rw [hlen, List.drop_of_length_le (by simp), execAll_nil]
  simp [callback, hoff, hlen, joinSpace_singleton]

theorem matchOpt_singletons (alts : List JsString) (h : ∀ a ∈ alts, a.length = 1)
    (x : Char) (xs : JsString) :
    matchOpt alts (x :: xs) = if [x] ∈ alts then (some [x], xs) else (none, x :: xs) := by
  unfold matchOpt
  rw [matchAlt_singletons alts h]
  by_cases hx : [x] ∈ alts <;> simp [hx]

theorem slotFrom_mem (alts : List JsString) (o : Option JsString) (h : slotFrom alts o) :
    o ∈ none :: alts.map some := by
  cases o with
  | none => simp
  | some x => simpa using h x rfl

theorem medial_stage_skip : ∀ v ∈ none :: vowelAlts.map some, ∀ t ∈ none :: toneAlts.map some,
    matchOpt medialAlts (captureText v ++ captureText t)
      = (none, captureText v ++ captureText t) := by
  decide

theorem medial_stage (m v t : Option JsString) (hm : slotFrom medialAlts m)
    (hv : slotFrom vowelAlts v) (ht : slotFrom toneAlts t) :
    matchOpt medialAlts (captureText m ++ (captureText v ++ captureText t))
      = (m, captureText v ++ captureText t) := by
  cases m with
  | none =>
    exact medial_stage_skip v (slotFrom_mem _ _ hv) t (slotFrom_mem _ _ ht)
  | some x =>
    have hx : x ∈ medialAlts := hm x rfl
    obtain ⟨y, rfl⟩ := List.length_eq_one.mp (medialAlts_length x hx)
    simp [captureText, matchOpt_singletons medialAlts medialAlts_length, hx]

theorem vowel_stage_skip : ∀ t ∈ none :: toneAlts.map some, t ≠ some openATone →
    matchOpt vowelAlts (captureText t) = (none, captureText t) := by
  decide

theorem vowel_stage (v t : Option JsString) (hv : slotFrom vowelAlts v)
    (ht : slotFrom toneAlts t) (hvt : v = none → t ≠ some openATone) :
    matchOpt vowelAlts (captureText v ++ captureText t) = (v, captureText t) := by
  cases v with
  | none =>
    exact vowel_stage_skip t (slotFrom_mem _ _ ht) (hvt rfl)
  | some x =>
    have hx : x ∈ vowelAlts := hv x rfl
    obtain ⟨y, rfl⟩ := List.length_eq_one.mp (vowelAlts_length x hx)
    simp [captureText, matchOpt_singletons vowelAlts vowelAlts_length, hx]

theorem tone_stage_all : ∀ t ∈ none :: toneAlts.map some,
    matchOpt toneAlts (captureText t) = (t, []) := by
  decide

theorem tone_stage (t : Option JsString) (ht : slotFrom toneAlts t) :
    matchOpt toneAlts (captureText t) = (t, []) :=
  tone_stage_all t (slotFrom_mem _ _ ht)

/-- The text of a syllable with the given slots. -/
theorem matchHere_slots (c : Char) (m v t : Option JsString) (pos : Nat)
    (hc : [c] ∈ consonantAlts) (hm : slotFrom medialAlts m) (hv : slotFrom vowelAlts v)
    (ht : slotFrom toneAlts t) (hvt : v = none → t ≠ some openATone) :
    matchHere (c :: (captureText m ++ (captureText v ++ captureText t))) pos
      = some ({ matched := c :: (captureText m ++ (captureText v ++ captureText t)),
                consonant := some [c], medial := m, vowel := v, tone := t, offset := pos },
              []) := by
  simp [matchHere, matchAlt_singletons consonantAlts consonantAlts_length, hc,
    medial_stage m v t hm hv ht, vowel_stage v t hv ht hvt, tone_stage t ht]

/-- A single syllable with the given slots is rendered as the normalised `result`
the callback builds from them. -/
theorem transliterate_slots (M : Mapping) (c : Char) (m v t : Option JsString)
    (hc : [c] ∈ consonantAlts) (hm : slotFrom medialAlts m) (hv : slotFrom vowelAlts v)
    (ht : slotFrom toneAlts t) (hvt : v = none → t ≠ some openATone) :
    transliterate M (c :: (captureText m ++ (captureText v ++ captureText t)))
      = normalise (resolve M (some [c]) m v t) :=
  transliterate_single M c _ _ (matchHere_slots c m v t 0 hc hm hv ht hvt) rfl

/-! ## Lemmas on the callback -/

theorem truthy_none : truthy none = false := rfl

theorem truthy_nil : truthy (some []) = false := rfl

theorem truthy_cons (a : Char) (l : JsString) : truthy (some (a :: l)) = true := rfl

theorem resolve_eq_parts (M : Mapping) (c m v t : Option JsString) :
    resolve M c m v t
      = slotPart M.consonants c ++ slotPart M.medials m ++ vowelPart M c v t
          ++ tonePart M v t := by
  unfold resolve slotPart vowelPart tonePart
  split_ifs <;> simp

theorem alts_ne_nil : ∀ a ∈ consonantAlts ++ medialAlts ++ vowelAlts ++ toneAlts, a ≠ [] := by
  decide

theorem truthy_slot (alts : List JsString) (hne : ∀ a ∈ alts, a ≠ []) (o : Option JsString)
    (h : slotFrom alts o) : truthy o = o.isSome := by
  cases o with
  | none => rfl
  | some x =>
    have hx : x ≠ [] := hne x (h x rfl)
    cases x with
    | nil => exact absurd rfl hx
    | cons a l => rfl

theorem truthy_medial (m : Option JsString) (h : slotFrom medialAlts m) :
    truthy m = m.isSome :=
  truthy_slot _ (fun a ha => alts_ne_nil a (by simp [ha])) m h

theorem truthy_vowel (v : Option JsString) (h : slotFrom vowelAlts v) :
    truthy v = v.isSome :=
  truthy_slot _ (fun a ha => alts_ne_nil a (by simp [ha])) v h

theorem truthy_tone (t : Option JsString) (h : slotFrom toneAlts t) :
    truthy t = t.isSome :=
  truthy_slot _ (fun a ha => alts_ne_nil a (by simp [ha])) t h

/-- A guarded slot appends the table value, and nothing on a miss or an absent
grapheme. -/
theorem slotPart_eq (table : JsString → Option JsString) (o : Option JsString)
    (h : truthy o = o.isSome) : slotPart table o = contribution table o := by
  cases o with
  | none => rfl
  | some x =>
    have hx : truthy (some x) = true := h
    rcases hk : table x with _ | _ | ⟨a, l⟩ <;>
      simp [slotPart, contribution, lookup, toJsString, truthy_none, truthy_nil, truthy_cons,
        hx, hk]

theorem tonePart_of_vowel (M : Mapping) (v t : Option JsString) (hv : truthy v = true)
    (ht : truthy t = t.isSome) : tonePart M v t = contribution M.tone t := by
  cases t with
  | none => simp [tonePart, contribution, truthy_none]
  | some x =>
    have hx : truthy (some x) = true := ht
    cases hk : M.tone x <;> simp [tonePart, contribution, lookup, toJsString, hx, hv, hk]

theorem tonePart_no_vowel (M : Mapping) (t : Option JsString) (ht : truthy t = t.isSome) :
    tonePart M none t
      = match t with
        | none => []
        | some x =>
          match M.tone x with
          | some k => k
          | none => if x = genericTone then ['e', 'e'] else [] := by
  cases t with
  | none => simp [tonePart, truthy_none]
  | some x =>
    have hx : truthy (some x) = true := ht
    cases hk : M.tone x <;> simp [tonePart, lookup, toJsString, truthy_none, hx, hk]

theorem vowelPart_ordinary (M : Mapping) (c : Option JsString) (v : JsString)
    (t : Option JsString) (hv : truthy (some v) = true) (hvo : v ≠ openA) :
    vowelPart M c (some v) t = toJsString (M.vowels v) := by
  simp [vowelPart, lookup, toJsString, hv, hvo]

theorem vowelPart_openA (M : Mapping) (c t : Option JsString) (ht : truthy t = t.isSome) :
    vowelPart M c (some openA) t
      = if t = some genericTone then ['a', 'h'] else toJsString (M.vowels openA) := by
  have hv : truthy (some openA) = true := rfl
  by_cases h : t = some genericTone
  · subst h
    have hg : truthy (some genericTone) = true := rfl
    simp [vowelPart, hv, hg]
  · have h2 : (t == some genericTone) = false := by simpa using h
    simp [vowelPart, hv, h, h2, lookup, toJsString]

theorem vowelPart_no_vowel (M : Mapping) (c : Char) (t : Option JsString)
    (ht : truthy t = t.isSome) :
    vowelPart M (some [c]) none t
      = if t.isSome ∧ t ≠ some genericTone then ['a'] else [] := by
  have h1 : truthy (some [c]) = true := rfl
  have h0 : truthy none = false := rfl
  simp [vowelPart, h0, h1, ht]

theorem contribution_of_entryOf (table : JsString → Option JsString) (o : Option JsString)
    (k : JsString) (h : entryOf table o k) : contribution table o = k := by
  cases o with
  | none => exact h.symm
  | some g =>
    have hg : table g = some k := h
    simp [contribution, hg]

/-! ## Lemmas on the white-space normalisation -/

theorem isWhiteSpace_space : isWhiteSpace ' ' = true := by decide

theorem countP_replaceWhiteSpaceFrom (b : Bool) (s : JsString) :
    (replaceWhiteSpaceFrom b s).countP (fun c => !isWhiteSpace c)
      = s.countP (fun c => !isWhiteSpace c) := by
  induction s generalizing b with
  | nil => rfl
  | cons c cs ih =>
    by_cases hc : isWhiteSpace c = true
    · cases b <;> simp [replaceWhiteSpaceFrom, hc, ih, isWhiteSpace_space]
    · simp [replaceWhiteSpaceFrom, hc, ih]

theorem countP_dropWhile_not (p : Char → Bool) (s : JsString) :
    (s.dropWhile p).countP (fun c => !p c) = s.countP (fun c => !p c) := by
  induction s with
  | nil => rfl
  | cons c cs ih =>
    by_cases hc : p c = true
    · simp [List.dropWhile, hc, ih]
    · simp [List.dropWhile, hc]

/-- Normalising neither adds nor removes a character that is not white space. -/
theorem countP_normalise (s : JsString) :
    (normalise s).countP (fun c => !isWhiteSpace c) = s.countP (fun c => !isWhiteSpace c) := by
  unfold normalise trim List.rdropWhile replaceWhiteSpace
  rw [List.countP_reverse, countP_dropWhile_not, List.countP_reverse, countP_dropWhile_not,
    countP_replaceWhiteSpaceFrom]

theorem normalise_append_ink_ne (k : JsString) (a : Char) (ha : isWhiteSpace a = false) :
    normalise k ≠ normalise (k ++ [a]) := by
  intro h
  have h2 := congrArg (List.countP (fun c => !isWhiteSpace c)) h
  rw [countP_normalise, countP_normalise] at h2
  simp [ha] at h2

theorem replaceWhiteSpaceFrom_space (b : Bool) (s : JsString) :
    ∀ x ∈ replaceWhiteSpaceFrom b s, isWhiteSpace x = true → x = ' ' := by
  induction s generalizing b with
  | nil => simp [replaceWhiteSpaceFrom]
  | cons c cs ih =>
    intro x hx hws
    by_cases hc : isWhiteSpace c = true
    · cases b
      · simp only [replaceWhiteSpaceFrom, hc, if_true, Bool.false_eq_true, if_false,
          List.mem_cons] at hx
        rcases hx with rfl | hx
        · rfl
        · exact ih true x hx hws
      · simp only [replaceWhiteSpaceFrom, hc, if_true] at hx
        exact ih true x hx hws
    · have hc2 : isWhiteSpace c = false := by simpa using hc
      simp only [replaceWhiteSpaceFrom, hc2, Bool.false_eq_true, if_false,
        List.mem_cons] at hx
      rcases hx with rfl | hx
      · exact absurd hws hc
      · exact ih false x hx hws

theorem replaceWhiteSpaceFrom_chain (b : Bool) (s : JsString) :
    List.Chain' (fun a b => ¬ (isWhiteSpace a = true ∧ isWhiteSpace b = true))
        (replaceWhiteSpaceFrom b s) ∧
      (b = true → ∀ x ∈ (replaceWhiteSpaceFrom b s).head?, isWhiteSpace x = false) := by
  induction s generalizing b with
  | nil => simp [replaceWhiteSpaceFrom]
  | cons c cs ih =>
    by_cases hc : isWhiteSpace c = true
    · cases b
      · simp only [replaceWhiteSpaceFrom, hc, if_true, Bool.false_eq_true, if_false]
        refine ⟨List.chain'_cons'.mpr ⟨fun y hy h => ?_, (ih true).1⟩, fun h => by simp at h⟩
        have := (ih true).2 rfl y hy
        simp [this] at h
      · simp only [replaceWhiteSpaceFrom, hc, if_true]
        exact ⟨(ih true).1, fun _ => (ih true).2 rfl⟩
    · have hc2 : isWhiteSpace c = false := by simpa using hc
      simp only [replaceWhiteSpaceFrom, hc2, Bool.false_eq_true, if_false]
      refine ⟨List.chain'_cons'.mpr ⟨fun y _ h => ?_, (ih false).1⟩, fun _ x hx => ?_⟩
      · simp [hc2] at h
      · simp only [List.head?_cons, Option.mem_def, Option.some.injEq] at hx
        rw [← hx]
        exact hc2

/-- The shape of a normalised text: no white space at either end, no two adjacent
white-space characters, and no white space other than the space U+0020. -/
theorem normalise_shape (s : JsString) :
    (∀ x ∈ (normalise s).head?, isWhiteSpace x = false) ∧
      (∀ x ∈ (normalise s).getLast?, isWhiteSpace x = false) ∧
      List.Chain' (fun a b => ¬ (isWhiteSpace a = true ∧ isWhiteSpace b = true))
        (normalise s) ∧
      ∀ x ∈ normalise s, isWhiteSpace x = true → x = ' ' := by
  have hpre : normalise s <+: (replaceWhiteSpace s).dropWhile isWhiteSpace :=
    List.rdropWhile_prefix _ _
  have hsuf : (replaceWhiteSpace s).dropWhile isWhiteSpace <:+ replaceWhiteSpace s :=
    List.dropWhile_suffix _
  refine ⟨?_, ?_, ?_, ?_⟩
  · intro x hx
    have hne : normalise s ≠ [] := by
      intro h
      rw [h] at hx
      simp at hx
    have hx2 : x = (normalise s).head hne := by
      rw [List.head?_eq_head hne] at hx
      simpa using hx.symm
    rw [hx2, hpre.head hne]
    exact List.head_dropWhile_not _ _ _
  · intro x hx
    have hne : normalise s ≠ [] := by
      intro h
      rw [h] at hx
      simp at hx
    have hx2 : x = (normalise s).getLast hne := by
      rw [List.getLast?_eq_getLast _ hne] at hx
      simpa using hx.symm
    have := List.rdropWhile_last_not isWhiteSpace
      ((replaceWhiteSpace s).dropWhile isWhiteSpace) hne
    rw [hx2]
    simpa [normalise, trim] using this
  · have hchain := (replaceWhiteSpaceFrom_chain false s).1
    exact List.Chain'.prefix (hchain.suffix hsuf) hpre
  · intro x hx
    exact replaceWhiteSpaceFrom_space false s x (hsuf.subset (hpre.subset hx))

/-! ## Lemmas on single matches -/

theorem matchAlt_spec (alts : List JsString) (s a r : JsString)
    (h : matchAlt alts s = some (a, r)) : a ∈ alts ∧ s = a ++ r := by
  induction alts with
  | nil => simp [matchAlt] at h
  | cons b rest ih =>
    unfold matchAlt at h
    by_cases hb : b.isPrefixOf s = true
    · simp only [hb, if_true, Option.some.injEq, Prod.mk.injEq] at h
      obtain ⟨rfl, rfl⟩ := h
      obtain ⟨t, rfl⟩ := List.isPrefixOf_iff_prefix.mp hb
      simp
    · simp only [hb, Bool.false_eq_true, if_false] at h
      have := ih h
      exact ⟨List.mem_cons_of_mem _ this.1, this.2⟩

theorem matchOpt_spec (alts : List JsString) (s : JsString) :
    slotFrom alts (matchOpt alts s).1 ∧ s = captureText (matchOpt alts s).1 ++ (matchOpt alts s).2 := by
  unfold matchOpt
  cases h : matchAlt alts s with
  | none => exact ⟨fun x hx => (by cases hx), rfl⟩
  | some p =>
    obtain ⟨a, r⟩ := p
    have := matchAlt_spec alts s a r h
    refine ⟨fun x hx => ?_, this.2⟩
    cases hx
    exact this.1

/-- The shape of every match: the slots are filled from their alternatives, the
matched text is the consonant followed by the filled slots, and the text splits
into the match and the rest. -/
theorem matchHere_spec (s : JsString) (pos : Nat) (m : SyllableMatch) (r : JsString)
    (h : matchHere s pos = some (m, r)) :
    (∃ c, [c] ∈ consonantAlts ∧ m.consonant = some [c] ∧
        m.matched = c :: (captureText m.medial ++ (captureText m.vowel ++ captureText m.tone))) ∧
      slotFrom medialAlts m.medial ∧ slotFrom vowelAlts m.vowel ∧ slotFrom toneAlts m.tone ∧
      s = m.matched ++ r ∧ m.offset = pos := by
  unfold matchHere at h
  cases hc : matchAlt consonantAlts s with
  | none => simp [hc] at h
  | some p =>
    obtain ⟨k, r1⟩ := p
    simp only [hc, Option.some.injEq, Prod.mk.injEq] at h
    obtain ⟨hm, hr⟩ := h
    have hk := matchAlt_spec _ _ _ _ hc
    obtain ⟨c, rfl⟩ := List.length_eq_one.mp (consonantAlts_length k hk.1)
    have h1 := matchOpt_spec medialAlts r1
    have h2 := matchOpt_spec vowelAlts (matchOpt medialAlts r1).2
    have h3 := matchOpt_spec toneAlts (matchOpt vowelAlts (matchOpt medialAlts r1).2).2
    subst hm
    refine ⟨⟨c, hk.1, rfl, by simp⟩, h1.1, h2.1, h3.1, ?_, rfl⟩
    rw [hk.2, ← hr]
    conv_lhs => rw [h1.2, h2.2, h3.2]
    simp

theorem matchHere_length_pos (s : JsString) (pos : Nat) (m : SyllableMatch) (r : JsString)
    (h : matchHere s pos = some (m, r)) : 1 ≤ m.matched.length := by
  obtain ⟨⟨c, _, _, hm⟩, _⟩ := matchHere_spec s pos m r h
  rw [hm]
  simp

theorem mem_execAll (fuel : Nat) (s : JsString) (pos : Nat) (m : SyllableMatch)
    (h : m ∈ execAll fuel s pos) : ∃ s1 pos1 r, matchHere s1 pos1 = some (m, r) := by
  induction fuel generalizing s pos with
  | zero => simp [execAll] at h
  | succ fuel ih =>
    cases s with
    | nil => simp [execAll] at h
    | cons x xs =>
      unfold execAll at h
      cases hm : matchHere (x :: xs) pos with
      | none =>
        simp only [hm] at h
        exact ih _ _ h
      | some p =>
        obtain ⟨m1, r⟩ := p
        simp only [hm, List.mem_cons] at h
        rcases h with rfl | h
        · exact ⟨_, _, _, hm⟩
        · exact ih _ _ h

theorem openATone_vowel_filled (s : JsString) (pos : Nat) (m : SyllableMatch) (r : JsString)
    (h : matchHere s pos = some (m, r)) (ht : m.tone = some openATone) :
    m.vowel.isSome = true := by
  unfold matchHere at h
  cases hc : matchAlt consonantAlts s with
  | none => simp [hc] at h
  | some p =>
    obtain ⟨k, r1⟩ := p
    simp only [hc, Option.some.injEq, Prod.mk.injEq] at h
    obtain ⟨hm, -⟩ := h
    subst hm
    simp only at ht ⊢
    generalize (matchOpt medialAlts r1).2 = r2 at ht ⊢
    cases r2 with
    | nil =>
      have : matchOpt vowelAlts [] = (none, []) := by decide
      rw [this] at ht
      exact absurd ht (by decide)
    | cons y ys =>
      rw [matchOpt_singletons vowelAlts vowelAlts_length] at ht ⊢
      by_cases hy : [y] ∈ vowelAlts
      · simp [hy]
      · exfalso
        simp only [hy, if_false] at ht
        have h3 := matchOpt_spec toneAlts (y :: ys)
        rw [ht] at h3
        have hy2 : y = 'ၢ' := by
          have := h3.2
          simp only [captureText, Option.getD_some, openATone, List.cons_append] at this
          exact (List.cons.inj this).1
        exact hy (by rw [hy2]; decide)


/-! ## Lemmas on the scan -/

theorem matchHere_rest_length (x : Char) (xs : JsString) (pos : Nat) (m : SyllableMatch)
    (r : JsString) (h : matchHere (x :: xs) pos = some (m, r)) :
    (x :: xs).drop m.matched.length = r ∧ r.length ≤ xs.length := by
  have hs := (matchHere_spec _ _ _ _ h).2.2.2.2.1
  have hl := matchHere_length_pos _ _ _ _ h
  have hlen := congrArg List.length hs
  simp only [List.length_cons, List.length_append] at hlen
  refine ⟨?_, by omega⟩
  conv_lhs => rw [hs]
  simp

/-- Any fuel that is at least the length of the text gives the same matches. -/
theorem execAll_fuel (fuel1 fuel2 : Nat) (s : JsString) (pos : Nat)
    (h1 : s.length ≤ fuel1) (h2 : s.length ≤ fuel2) :
    execAll fuel1 s pos = execAll fuel2 s pos := by
  induction fuel1 generalizing fuel2 s pos with
  | zero =>
    have hs : s = [] := List.length_eq_zero.mp (Nat.le_zero.mp h1)
    subst hs
    rw [execAll_nil, execAll_nil]
  | succ fuel1 ih =>
    cases s with
    | nil => rw [execAll_nil, execAll_nil]
    | cons x xs =>
      cases fuel2 with
      | zero => simp at h2
      | succ fuel2 =>
        simp only [List.length_cons, Nat.add_le_add_iff_right] at h1 h2
        unfold execAll
        cases hm : matchHere (x :: xs) pos with
        | none => exact ih fuel2 xs (pos + 1) h1 h2
        | some p =>
          obtain ⟨m, r⟩ := p
          obtain ⟨hd, hr⟩ := matchHere_rest_length x xs pos m r hm
          simp only [hd]
          rw [ih fuel2 r _ (by omega) (by omega)]

/-- The matches lie at or after the start of the scanned text and each starts at or
after the end of the one before. -/
theorem execAll_ordered (fuel : Nat) (s : JsString) (pos : Nat) :
    (∀ m ∈ execAll fuel s pos, pos ≤ m.offset) ∧
      List.Chain' (fun a b : SyllableMatch => a.offset + a.matched.length ≤ b.offset)
        (execAll fuel s pos) := by
  induction fuel generalizing s pos with
  | zero => simp [execAll]
  | succ fuel ih =>
    cases s with
    | nil => simp [execAll]
    | cons x xs =>
      unfold execAll
      cases hm : matchHere (x :: xs) pos with
      | none =>
        obtain ⟨h1, h2⟩ := ih xs (pos + 1)
        exact ⟨fun m hmem => Nat.le_of_succ_le (h1 m hmem), h2⟩
      | some p =>
        obtain ⟨m, r⟩ := p
        have hoff : m.offset = pos := matchHere_offset _ _ _ _ hm
        obtain ⟨h1, h2⟩ := ih ((x :: xs).drop m.matched.length) (pos + m.matched.length)
        refine ⟨fun y hy => ?_, List.chain'_cons'.mpr ⟨fun y hy => ?_, h2⟩⟩
        · simp only [List.mem_cons] at hy
          rcases hy with rfl | hy
          · exact Nat.le_of_eq hoff.symm
          · exact Nat.le_trans (Nat.le_add_right _ _) (h1 y hy)
        · rw [hoff]
          exact h1 y (List.mem_of_mem_head? hy)

theorem replaceWhiteSpaceFrom_all (b : Bool) (s : JsString)
    (h : ∀ c ∈ s, isWhiteSpace c = true) :
    ∀ c ∈ replaceWhiteSpaceFrom b s, isWhiteSpace c = true := by
  induction s generalizing b with
  | nil => simp [replaceWhiteSpaceFrom]
  | cons d ds ih =>
    intro c hc
    have hd : isWhiteSpace d = true := h d (List.mem_cons_self _ _)
    have hds : ∀ c ∈ ds, isWhiteSpace c = true := fun c hc => h c (List.mem_cons_of_mem _ hc)
    cases b
    · simp only [replaceWhiteSpaceFrom, hd, if_true, Bool.false_eq_true, if_false,
        List.mem_cons] at hc
      rcases hc with rfl | hc
      · exact isWhiteSpace_space
      · exact ih true hds c hc
    · simp only [replaceWhiteSpaceFrom, hd, if_true] at hc
      exact ih true hds c hc

theorem normalise_all_whiteSpace (s : JsString) (h : ∀ c ∈ s, isWhiteSpace c = true) :
    normalise s = [] := by
  have h1 : (replaceWhiteSpace s).dropWhile isWhiteSpace = [] :=
    List.dropWhile_eq_nil_iff.mpr (replaceWhiteSpaceFrom_all false s h)
  unfold normalise trim
  rw [h1]
  rfl

theorem whiteSpace_not_consonant : ∀ k ∈ consonantAlts, ∀ c ∈ k, isWhiteSpace c = false := by
  decide

/-- Without a consonant there is no match and the input is its own only segment. -/
theorem transliterate_no_consonant (M : Mapping) (input : JsString)
    (h : ∀ x ∈ input, [x] ∉ consonantAlts) :
    transliterate M input = normalise input := by
  unfold transliterate regexMatches
  rw [execAll_no_consonant _ _ _ h]
  cases input with
  | nil => rfl
  | cons x xs => simp [joinSpace_singleton]


/-! ## Lemmas on words -/

theorem joinSpace_nil : joinSpace [] = [] := rfl

theorem joinSpace_cons_cons (w v : JsString) (r : List JsString) :
    joinSpace (w :: v :: r) = w ++ ' ' :: joinSpace (v :: r) := by
  simp [joinSpace, List.intercalate, List.intersperse]

theorem joinSpace_cons (w : JsString) (r : List JsString) :
    joinSpace (w :: r) = if r = [] then w else w ++ ' ' :: joinSpace r := by
  cases r with
  | nil => simp [joinSpace_singleton]
  | cons v r => simp [joinSpace_cons_cons]

theorem joinSpace_append (x y : List JsString) (hx : x ≠ []) (hy : y ≠ []) :
    joinSpace (x ++ y) = joinSpace x ++ ' ' :: joinSpace y := by
  induction x with
  | nil => exact absurd rfl hx
  | cons w r ih =>
    cases r with
    | nil =>
      cases y with
      | nil => exact absurd rfl hy
      | cons v t => simp [joinSpace_cons_cons, joinSpace_singleton]
    | cons v t =>
      have := ih (by simp)
      simp only [List.cons_append] at this ⊢
      rw [joinSpace_cons_cons, joinSpace_cons_cons, this]
      simp

theorem joinSpace_consWord (c : Char) (ws : List JsString) (h : ws ≠ []) :
    joinSpace (consWord c ws) = c :: joinSpace ws := by
  cases ws with
  | nil => exact absurd rfl h
  | cons w r =>
    cases r with
    | nil => simp [consWord, joinSpace_singleton]
    | cons v t => simp [consWord, joinSpace_cons_cons]

theorem consWord_append (c : Char) (x y : List JsString) (hx : x ≠ []) :
    consWord c (x ++ y) = consWord c x ++ y := by
  cases x with
  | nil => exact absurd rfl hx
  | cons w r => rfl

theorem words_cons_whiteSpace (c : Char) (s : JsString) (hc : isWhiteSpace c = true) :
    words (c :: s) = words s := by
  simp [words, hc]

theorem words_cons_ink (c : Char) (s : JsString) (hc : isWhiteSpace c = false) :
    words (c :: s) = if startsInk s = true then consWord c (words s) else [c] :: words s := by
  simp [words, hc]

theorem words_ne_nil (s : JsString) (h : startsInk s = true) : words s ≠ [] := by
  cases s with
  | nil => simp [startsInk] at h
  | cons c cs =>
    have hc : isWhiteSpace c = false := by simpa [startsInk] using h
    rw [words_cons_ink c cs hc]
    by_cases hs : startsInk cs = true
    · simp only [hs, if_true]
      cases words cs <;> simp [consWord]
    · simp [hs]

/-- Every word is non-empty and free of white space. -/
theorem words_mem (s : JsString) :
    ∀ w ∈ words s, w ≠ [] ∧ ∀ c ∈ w, isWhiteSpace c = false := by
  induction s with
  | nil => simp [words]
  | cons c cs ih =>
    by_cases hc : isWhiteSpace c = true
    · rw [words_cons_whiteSpace c cs hc]
      exact ih
    · have hc2 : isWhiteSpace c = false := by simpa using hc
      rw [words_cons_ink c cs hc2]
      by_cases hs : startsInk cs = true
      · simp only [hs, if_true]
        cases hw : words cs with
        | nil => simp [consWord, hc2]
        | cons w r =>
          rw [hw] at ih
          intro v hv
          simp only [consWord, List.mem_cons] at hv
          rcases hv with rfl | hv
          · refine ⟨by simp, fun d hd => ?_⟩
            simp only [List.mem_cons] at hd
            rcases hd with rfl | hd
            · exact hc2
            · exact (ih w (List.mem_cons_self _ _)).2 d hd
          · exact ih v (List.mem_cons_of_mem _ hv)
      · simp only [hs, Bool.false_eq_true, if_false]
        intro v hv
        simp only [List.mem_cons] at hv
        rcases hv with rfl | hv
        · refine ⟨by simp, fun d hd => ?_⟩
          rw [List.mem_singleton.mp hd]
          exact hc2
        · exact ih v hv

theorem joinSpace_eq_nil (ws : List JsString) (h : ∀ w ∈ ws, w ≠ []) :
    joinSpace ws = [] ↔ ws = [] := by
  cases ws with
  | nil => simp [joinSpace_nil]
  | cons w r =>
    have hw : w ≠ [] := h w (List.mem_cons_self _ _)
    rw [joinSpace_cons]
    split <;> simp [hw]

/-- A white-space character between two texts separates their words. -/
theorem words_append_sep (x : JsString) (c : Char) (y : JsString)
    (hc : isWhiteSpace c = true) : words (x ++ c :: y) = words x ++ words y := by
  induction x with
  | nil =>
    rw [List.nil_append, words_cons_whiteSpace c y hc]
    rfl
  | cons d ds ih =>
    have hst : startsInk (ds ++ c :: y) = startsInk ds := by
      cases ds <;> simp [startsInk, hc]
    by_cases hd : isWhiteSpace d = true
    · simp only [List.cons_append]
      rw [words_cons_whiteSpace d _ hd, words_cons_whiteSpace d _ hd, ih]
    · have hd2 : isWhiteSpace d = false := by simpa using hd
      simp only [List.cons_append]
      rw [words_cons_ink d _ hd2, words_cons_ink d _ hd2, hst, ih]
      by_cases hs : startsInk ds = true
      · simp only [hs, if_true]
        exact consWord_append d _ _ (words_ne_nil ds hs)
      · simp [hs]

theorem words_whiteSpace_append (x y : JsString) (hx : ∀ c ∈ x, isWhiteSpace c = true) :
    words (x ++ y) = words y := by
  induction x with
  | nil => rfl
  | cons d ds ih =>
    simp only [List.cons_append]
    rw [words_cons_whiteSpace d _ (hx d (List.mem_cons_self _ _))]
    exact ih (fun c hc => hx c (List.mem_cons_of_mem _ hc))

/-- A non-empty text without white space is its own only word. -/
theorem words_ink (w : JsString) (hne : w ≠ []) (h : ∀ c ∈ w, isWhiteSpace c = false) :
    words w = [w] := by
  induction w with
  | nil => exact absurd rfl hne
  | cons c cs ih =>
    have hc : isWhiteSpace c = false := h c (List.mem_cons_self _ _)
    cases cs with
    | nil => simp [words, hc, startsInk]
    | cons d ds =>
      have hd : isWhiteSpace d = false := h d (by simp)
      have := ih (by simp) (fun x hx => h x (List.mem_cons_of_mem _ hx))
      rw [words_cons_ink c _ hc, this]
      simp [startsInk, hd, consWord]

/-- Joining words with single spaces and taking the words again gives them back. -/
theorem words_joinSpace (ws : List JsString)
    (h : ∀ w ∈ ws, w ≠ [] ∧ ∀ c ∈ w, isWhiteSpace c = false) : words (joinSpace ws) = ws := by
  induction ws with
  | nil => rfl
  | cons w r ih =>
    have hw := h w (List.mem_cons_self _ _)
    have hr : ∀ v ∈ r, v ≠ [] ∧ ∀ c ∈ v, isWhiteSpace c = false :=
      fun v hv => h v (List.mem_cons_of_mem _ hv)
    cases r with
    | nil => rw [joinSpace_singleton, words_ink w hw.1 hw.2]
    | cons v t =>
      rw [joinSpace_cons_cons, words_append_sep _ _ _ isWhiteSpace_space, words_ink w hw.1 hw.2,
        ih hr]
      rfl


/-! ## The normalised text in terms of words -/

theorem rdropWhile_cons (p : Char → Bool) (c : Char) (l : JsString) :
    (c :: l).rdropWhile p
      = if p c = true ∧ l.rdropWhile p = [] then [] else c :: l.rdropWhile p := by
  unfold List.rdropWhile
  rw [List.reverse_cons, List.dropWhile_append]
  by_cases hl : l.reverse.dropWhile p = []
  · by_cases hc : p c = true <;> simp [hl, hc]
  · have hne : (l.reverse.dropWhile p).isEmpty = false := by
      cases h : l.reverse.dropWhile p with
      | nil => exact absurd h hl
      | cons a b => rfl
    simp [hl, hne]

theorem dropWhile_replaceWhiteSpaceFrom (b : Bool) (s : JsString) :
    (replaceWhiteSpaceFrom b s).dropWhile isWhiteSpace = replaceWhiteSpaceFrom true s := by
  induction s generalizing b with
  | nil => rfl
  | cons c cs ih =>
    by_cases hc : isWhiteSpace c = true
    · cases b
      · simp only [replaceWhiteSpaceFrom, hc, if_true, Bool.false_eq_true, if_false]
        rw [List.dropWhile_cons_of_pos isWhiteSpace_space]
        exact ih true
      · simp only [replaceWhiteSpaceFrom, hc, if_true]
        exact ih true
    · have hc2 : isWhiteSpace c = false := by simpa using hc
      simp only [replaceWhiteSpaceFrom, hc2, Bool.false_eq_true, if_false]
      rw [List.dropWhile_cons_of_neg hc]

theorem rdropWhile_replaceWhiteSpaceFrom (s : JsString) :
    (replaceWhiteSpaceFrom true s).rdropWhile isWhiteSpace = joinSpace (words s) ∧
      ∀ c, isWhiteSpace c = false →
        c :: (replaceWhiteSpaceFrom false s).rdropWhile isWhiteSpace
          = joinSpace (words (c :: s)) := by
  induction s with
  | nil =>
    refine ⟨rfl, fun c hc => ?_⟩
    rw [words_cons_ink c [] hc]
    rfl
  | cons d ds ih =>
    obtain ⟨ih1, ih2⟩ := ih
    by_cases hd : isWhiteSpace d = true
    · refine ⟨?_, fun c hc => ?_⟩
      · simp only [replaceWhiteSpaceFrom, hd, if_true]
        rw [ih1, words_cons_whiteSpace d ds hd]
      · have hst : startsInk (d :: ds) = false := by simp [startsInk, hd]
        rw [words_cons_ink c _ hc, words_cons_whiteSpace d ds hd]
        simp only [hst, Bool.false_eq_true, if_false]
        simp only [replaceWhiteSpaceFrom, hd, if_true, Bool.false_eq_true, if_false]
        rw [rdropWhile_cons, ih1, joinSpace_cons]
        by_cases hw : words ds = []
        · simp [hw, joinSpace_nil, isWhiteSpace_space]
        · have hj : joinSpace (words ds) ≠ [] :=
            fun h => hw ((joinSpace_eq_nil _ (fun w hw => (words_mem ds w hw).1)).mp h)
          simp [hw, hj]
    · have hd2 : isWhiteSpace d = false := by simpa using hd
      have h1 : (replaceWhiteSpaceFrom true (d :: ds)).rdropWhile isWhiteSpace
          = joinSpace (words (d :: ds)) := by
        simp only [replaceWhiteSpaceFrom, hd2, Bool.false_eq_true, if_false]
        rw [rdropWhile_cons]
        simp only [hd2, Bool.false_eq_true, false_and, if_false]
        exact ih2 d hd2
      have h2 : (replaceWhiteSpaceFrom false (d :: ds)).rdropWhile isWhiteSpace
          = joinSpace (words (d :: ds)) := by
        simp only [replaceWhiteSpaceFrom, hd2, Bool.false_eq_true, if_false]
        rw [rdropWhile_cons]
        simp only [hd2, Bool.false_eq_true, false_and, if_false]
        exact ih2 d hd2
      refine ⟨h1, fun c hc => ?_⟩
      have hst : startsInk (d :: ds) = true := by simp [startsInk, hd2]
      rw [h2, words_cons_ink c _ hc]
      simp only [hst, if_true]
      rw [joinSpace_consWord c _ (words_ne_nil _ hst)]

/-- The normalised text is the words of the text joined by single spaces. -/
theorem normalise_eq_words (s : JsString) : normalise s = joinSpace (words s) := by
  unfold normalise trim replaceWhiteSpace
  rw [dropWhile_replaceWhiteSpaceFrom]
  exact (rdropWhile_replaceWhiteSpaceFrom s).1

theorem words_normalise (s : JsString) : words (normalise s) = words s := by
  rw [normalise_eq_words, words_joinSpace _ (words_mem s)]

theorem normalise_normalise (s : JsString) : normalise (normalise s) = normalise s := by
  rw [normalise_eq_words (normalise s), words_normalise, normalise_eq_words]

/-- Normalising the parts first does not change the normalised whole. -/
theorem normalise_sep (x y : JsString) :
    normalise (normalise x ++ ' ' :: normalise y) = normalise (x ++ ' ' :: y) := by
  rw [normalise_eq_words (normalise x ++ ' ' :: normalise y), normalise_eq_words (x ++ ' ' :: y),
    words_append_sep _ _ _ isWhiteSpace_space, words_append_sep _ _ _ isWhiteSpace_space,
    words_normalise, words_normalise]


/-! ## The output as segments -/

theorem transliterate_eq_outputOf (M : Mapping) (input : JsString) :
    transliterate M input = normalise (joinSpace (outputOf M input)) := rfl

theorem matchHere_pos (s : JsString) (pos : Nat) :
    matchHere s pos
      = (matchHere s 0).map (fun p => ({ p.1 with offset := pos }, p.2)) := by
  unfold matchHere
  cases matchAlt consonantAlts s with
  | none => rfl
  | some p => rfl

theorem flush_append_nil (gap : JsString) : flush (gap ++ []) = flush gap := by
  rw [List.append_nil]

/-- The fold of the callback over the matches, followed by the push of the
remaining text, produces the segments. -/
theorem fold_segments (M : Mapping) (input : JsString) (fuel : Nat) (s pre gap : JsString)
    (st : ScanState) (hin : input = pre ++ (gap ++ s)) (hst : st.lastIndex = pre.length) :
    finishOutput input
        ((execAll fuel s (pre.length + gap.length)).foldl (callback M input) st)
      = st.output ++ segments M fuel s gap := by
  induction fuel generalizing s pre gap st with
  | zero =>
    simp only [execAll, List.foldl_nil, segments, finishOutput, flush, hst, hin,
      List.length_append, List.drop_left]
    by_cases h : gap ++ s = []
    · have h2 : gap.length + s.length = 0 := by
        rw [← List.length_append, h]; rfl
      simp [h, h2]
    · have h2 : 0 < gap.length + s.length := by
        rw [← List.length_append]
        exact List.length_pos.mpr h
      simp [h, h2]
  | succ fuel ih =>
    cases s with
    | nil =>
      simp only [execAll, List.foldl_nil, segments, finishOutput, flush, hst, hin,
        List.length_append, List.drop_left, List.append_nil, List.length_nil, Nat.add_zero]
      by_cases h : gap = []
      · simp [h]
      · have h2 : 0 < gap.length := List.length_pos.mpr h
        simp [h, h2]
    | cons x xs =>
      unfold execAll segments
      rw [matchHere_pos (x :: xs) (pre.length + gap.length)]
      cases hm : matchHere (x :: xs) 0 with
      | none =>
        simp only [Option.map_none']
        have := ih xs pre (gap ++ [x]) st (by rw [hin]; simp) hst
        simpa [Nat.add_assoc] using this
      | some p =>
        obtain ⟨m, r⟩ := p
        obtain ⟨hd, -⟩ := matchHere_rest_length x xs 0 m r hm
        have hsplit : x :: xs = m.matched ++ r := (matchHere_spec _ _ _ _ hm).2.2.2.2.1
        simp only [Option.map_some', List.foldl_cons, hd]
        have hslice : slice input pre.length (pre.length + gap.length) = gap := by
          rw [hin]
          simp [slice]
        have hcb : callback M input st { m with offset := pre.length + gap.length }
            = { output := st.output ++ flush gap
                  ++ [resolve M m.consonant m.medial m.vowel m.tone],
                lastIndex := pre.length + gap.length + m.matched.length } := by
          unfold callback flush
          simp only [hst, hslice]
          by_cases hg : gap = []
          · simp [hg]
          · have h2 : 0 < gap.length := List.length_pos.mpr hg
            simp [hg, h2]
        rw [hcb]
        have := ih r (pre ++ (gap ++ m.matched)) []
          { output := st.output ++ flush gap
              ++ [resolve M m.consonant m.medial m.vowel m.tone],
            lastIndex := pre.length + gap.length + m.matched.length }
          (by rw [hin, hsplit]; simp) (by simp [Nat.add_assoc])
        simp only [List.length_append, List.length_nil, Nat.add_zero, ← Nat.add_assoc] at this
        rw [this]
        simp

/-- The array `output` is the list of segments of the input. -/
theorem outputOf_eq_segments (M : Mapping) (input : JsString) :
    outputOf M input = segments M input.length input [] := by
  have := fold_segments M input input.length input [] []
    { output := [], lastIndex := 0 } rfl rfl
  simpa [outputOf, scanEnd, regexMatches] using this


/-! ## The scan of a text followed by a consonant -/

theorem segments_nil (M : Mapping) (fuel : Nat) (gap : JsString) :
    segments M fuel [] gap = flush gap := by
  cases fuel with
  | zero => simp [segments]
  | succ fuel => rfl

/-- Any fuel that is at least the length of the text gives the same segments. -/
theorem segments_fuel (M : Mapping) (fuel1 fuel2 : Nat) (s gap : JsString)
    (h1 : s.length ≤ fuel1) (h2 : s.length ≤ fuel2) :
    segments M fuel1 s gap = segments M fuel2 s gap := by
  induction fuel1 generalizing fuel2 s gap with
  | zero =>
    have hs : s = [] := List.length_eq_zero.mp (Nat.le_zero.mp h1)
    subst hs
    rw [segments_nil, segments_nil]
  | succ fuel1 ih =>
    cases s with
    | nil => rw [segments_nil, segments_nil]
    | cons x xs =>
      cases fuel2 with
      | zero => simp at h2
      | succ fuel2 =>
        simp only [List.length_cons, Nat.add_le_add_iff_right] at h1 h2
        unfold segments
        cases hm : matchHere (x :: xs) 0 with
        | none => exact ih fuel2 xs _ h1 h2
        | some p =>
          obtain ⟨m, r⟩ := p
          obtain ⟨-, hr⟩ := matchHere_rest_length x xs 0 m r hm
          simp only
          rw [ih fuel2 r [] (by omega) (by omega)]

theorem isPrefixOf_append_cons (a s : JsString) (c : Char) (t : JsString) (hc : c ∉ a) :
    a.isPrefixOf (s ++ c :: t) = a.isPrefixOf s := by
  induction a generalizing s with
  | nil => simp [List.isPrefixOf]
  | cons y ys ih =>
    have hy : y ≠ c := fun h => hc (by simp [h])
    have hys : c ∉ ys := fun h => hc (List.mem_cons_of_mem _ h)
    cases s with
    | nil => simp [List.isPrefixOf, hy]
    | cons z zs =>
      have h2 : ys.isPrefixOf (zs.append (c :: t)) = ys.isPrefixOf zs := ih zs hys
      simp only [List.cons_append, List.isPrefixOf, h2]

theorem matchAlt_append_cons (alts : List JsString) (s : JsString) (c : Char) (t : JsString)
    (hc : ∀ a ∈ alts, c ∉ a) :
    matchAlt alts (s ++ c :: t) = (matchAlt alts s).map (fun p => (p.1, p.2 ++ c :: t)) := by
  induction alts with
  | nil => rfl
  | cons a rest ih =>
    unfold matchAlt
    rw [isPrefixOf_append_cons a s c t (hc a (List.mem_cons_self _ _))]
    by_cases ha : a.isPrefixOf s = true
    · obtain ⟨u, rfl⟩ := List.isPrefixOf_iff_prefix.mp ha
      simp [ha]
    · simp only [ha, Bool.false_eq_true, if_false]
      exact ih (fun b hb => hc b (List.mem_cons_of_mem _ hb))

theorem matchOpt_append_cons (alts : List JsString) (s : JsString) (c : Char) (t : JsString)
    (hc : ∀ a ∈ alts, c ∉ a) :
    matchOpt alts (s ++ c :: t) = ((matchOpt alts s).1, (matchOpt alts s).2 ++ c :: t) := by
  unfold matchOpt
  rw [matchAlt_append_cons alts s c t hc]
  cases matchAlt alts s with
  | none => rfl
  | some p => rfl

theorem consonant_not_in_slots :
    ∀ k ∈ consonantAlts, ∀ c ∈ k, ∀ a ∈ medialAlts ++ vowelAlts ++ toneAlts, c ∉ a := by
  decide

/-- A consonant after the text neither extends nor shortens a match in the text. -/
theorem matchHere_append_cons (x : Char) (xs : JsString) (c : Char) (t : JsString)
    (hc : [c] ∈ consonantAlts) :
    matchHere (x :: xs ++ c :: t) 0
      = (matchHere (x :: xs) 0).map (fun p => (p.1, p.2 ++ c :: t)) := by
  have hno := consonant_not_in_slots [c] hc c (List.mem_singleton_self c)
  have hm : ∀ a ∈ medialAlts, c ∉ a := fun a ha => hno a (by simp [ha])
  have hv : ∀ a ∈ vowelAlts, c ∉ a := fun a ha => hno a (by simp [ha])
  have ht : ∀ a ∈ toneAlts, c ∉ a := fun a ha => hno a (by simp [ha])
  unfold matchHere
  simp only [List.cons_append, matchAlt_singletons consonantAlts consonantAlts_length]
  by_cases hx : [x] ∈ consonantAlts
  · simp only [hx, if_true, Option.map_some']
    rw [matchOpt_append_cons medialAlts xs c t hm,
      matchOpt_append_cons vowelAlts _ c t hv, matchOpt_append_cons toneAlts _ c t ht]
  · simp [hx]

theorem matchHere_consonant (c : Char) (t : JsString) (hc : [c] ∈ consonantAlts) :
    ∃ m r, matchHere (c :: t) 0 = some (m, r) := by
  unfold matchHere
  simp [matchAlt_singletons consonantAlts consonantAlts_length, hc]

theorem segments_append_cons (M : Mapping) (fuel : Nat) (a gap : JsString) (c : Char)
    (t : JsString) (hc : [c] ∈ consonantAlts) (ha : a.length ≤ fuel) :
    segments M (fuel + (t.length + 1)) (a ++ c :: t) gap
      = segments M fuel a gap ++ segments M (t.length + 1) (c :: t) [] := by
  induction fuel generalizing a gap with
  | zero =>
    have hs : a = [] := List.length_eq_zero.mp (Nat.le_zero.mp ha)
    subst hs
    obtain ⟨m, r, hm⟩ := matchHere_consonant c t hc
    simp [segments, hm, flush]
  | succ fuel ih =>
    cases a with
    | nil =>
      obtain ⟨m, r, hm⟩ := matchHere_consonant c t hc
      obtain ⟨-, hr⟩ := matchHere_rest_length c t 0 m r hm
      have hf : fuel + 1 + (t.length + 1) = (fuel + 1 + t.length) + 1 := by omega
      rw [List.nil_append, hf]
      simp only [segments, hm, flush]
      rw [segments_fuel M (fuel + 1 + t.length) t.length r [] (by omega) hr]
      simp
    | cons x xs =>
      simp only [List.length_cons, Nat.add_le_add_iff_right] at ha
      have hf : fuel + 1 + (t.length + 1) = (fuel + (t.length + 1)) + 1 := by omega
      rw [hf]
      simp only [List.cons_append]
      rw [segments]
      have hmatch := matchHere_append_cons x xs c t hc
      simp only [List.cons_append] at hmatch
      rw [hmatch]
      conv_rhs => rw [segments]
      cases hm : matchHere (x :: xs) 0 with
      | none =>
        simp only [Option.map_none']
        exact ih xs _ ha
      | some p =>
        obtain ⟨m, r⟩ := p
        obtain ⟨-, hr⟩ := matchHere_rest_length x xs 0 m r hm
        simp only [Option.map_some']
        rw [ih r [] (by omega)]
        simp

/-- The segments of a text followed by a text that starts with a consonant are
the segments of the first followed by the segments of the second. -/
theorem outputOf_append_cons (M : Mapping) (a : JsString) (c : Char) (t : JsString)
    (hc : [c] ∈ consonantAlts) :
    outputOf M (a ++ c :: t) = outputOf M a ++ outputOf M (c :: t) := by
  rw [outputOf_eq_segments, outputOf_eq_segments, outputOf_eq_segments]
  have := segments_append_cons M a.length a [] c t hc (Nat.le_refl _)
  simpa using this

theorem outputOf_cons_ne_nil (M : Mapping) (c : Char) (t : JsString)
    (hc : [c] ∈ consonantAlts) : outputOf M (c :: t) ≠ [] := by
  obtain ⟨m, r, hm⟩ := matchHere_consonant c t hc
  rw [outputOf_eq_segments]
  simp [segments, hm, flush]

theorem normalise_cons_whiteSpace (c : Char) (s : JsString) (hc : isWhiteSpace c = true) :
    normalise (c :: s) = normalise s := by
  rw [normalise_eq_words, normalise_eq_words, words_cons_whiteSpace c s hc]

/-- The normalised join of two lists of segments, the second not empty. -/
theorem normalise_joinSpace_append (x y : List JsString) (hy : y ≠ []) :
    normalise (joinSpace (x ++ y))
      = normalise (normalise (joinSpace x) ++ ' ' :: normalise (joinSpace y)) := by
  rw [normalise_sep]
  cases x with
  | nil =>
    rw [List.nil_append, joinSpace_nil, List.nil_append,
      normalise_cons_whiteSpace _ _ isWhiteSpace_space]
  | cons w r => rw [joinSpace_append _ _ (by simp) hy]


/-! ## Texts without a consonant, and a consonant before a space -/

theorem ascii_not_consonant : ∀ k ∈ consonantAlts, ∀ c ∈ k, 128 ≤ c.toNat := by decide

theorem asciiText_no_consonant (s : JsString) (h : asciiText s) :
    ∀ x ∈ s, [x] ∉ consonantAlts := by
  intro x hx hmem
  have h1 := ascii_not_consonant [x] hmem x (List.mem_singleton_self x)
  have h2 := h x hx
  omega

theorem segments_no_consonant (M : Mapping) (fuel : Nat) (s gap : JsString)
    (h : ∀ x ∈ s, [x] ∉ consonantAlts) : segments M fuel s gap = flush (gap ++ s) := by
  induction fuel generalizing s gap with
  | zero => rfl
  | succ fuel ih =>
    cases s with
    | nil => simp [segments]
    | cons x xs =>
      rw [segments, matchHere_none x xs 0 (h x (List.mem_cons_self _ _))]
      simp only
      rw [ih xs _ (fun y hy => h y (List.mem_cons_of_mem _ hy))]
      simp

theorem matchOpt_space (ys : JsString) :
    matchOpt medialAlts (' ' :: ys) = (none, ' ' :: ys) ∧
      matchOpt vowelAlts (' ' :: ys) = (none, ' ' :: ys) ∧
      matchOpt toneAlts (' ' :: ys) = (none, ' ' :: ys) := by
  refine ⟨?_, ?_, ?_⟩
  · rw [matchOpt_singletons medialAlts medialAlts_length]
    have : [' '] ∉ medialAlts := by decide
    simp [this]
  · rw [matchOpt_singletons vowelAlts vowelAlts_length]
    have : [' '] ∉ vowelAlts := by decide
    simp [this]
  · simp [matchOpt, matchAlt, toneAlts, List.isPrefixOf]

/-- A consonant before a space matches alone. -/
theorem matchHere_before_space (c : Char) (ys : JsString) (hc : [c] ∈ consonantAlts) :
    matchHere (c :: ' ' :: ys) 0
      = some ({ matched := [c], consonant := some [c], medial := none, vowel := none,
                tone := none, offset := 0 }, ' ' :: ys) := by
  obtain ⟨h1, h2, h3⟩ := matchOpt_space ys
  simp [matchHere, matchAlt_singletons consonantAlts consonantAlts_length, hc, h1, h2, h3,
    captureText]

theorem resolve_bare (M : Mapping) (c : Char) :
    resolve M (some [c]) none none none = contribution M.consonants (some [c]) := by
  have hcT : truthy (some [c]) = (some [c]).isSome := rfl
  rw [resolve_eq_parts, slotPart_eq M.consonants (some [c]) hcT, slotPart_eq M.medials none rfl,
    vowelPart_no_vowel M c none rfl, tonePart_no_vowel M none rfl]
  simp [contribution]

/-- The segments of a consonant, a space and a text without a consonant. -/
theorem outputOf_consonant_space (M : Mapping) (c : Char) (ys : JsString)
    (hc : [c] ∈ consonantAlts) (hys : ∀ x ∈ ys, [x] ∉ consonantAlts) :
    outputOf M (c :: ' ' :: ys) = [contribution M.consonants (some [c]), ' ' :: ys] := by
  have hsp : ∀ x ∈ ' ' :: ys, [x] ∉ consonantAlts := by
    intro x hx
    simp only [List.mem_cons] at hx
    rcases hx with rfl | hx
    · decide
    · exact hys x hx
  rw [outputOf_eq_segments]
  simp only [List.length_cons]
  rw [segments, matchHere_before_space c ys hc]
  simp only
  rw [segments_no_consonant M _ _ _ hsp, resolve_bare]
  simp [flush]

theorem outputOf_consonant (M : Mapping) (c : Char) (hc : [c] ∈ consonantAlts) :
    outputOf M [c] = [contribution M.consonants (some [c])] := by
  have hm := matchHere_slots c none none none 0 hc (by decide) (by decide) (by decide) (by simp)
  simp only [captureText, Option.getD_none, List.append_nil] at hm
  rw [outputOf_eq_segments]
  simp [segments, hm, resolve_bare, flush]


/-! ## Words around a gap, and the last word -/

/-- A word between two non-empty runs of white space. -/
theorem words_between (x u w v y : JsString) (hu : u ≠ []) (hv : v ≠ [])
    (hua : ∀ c ∈ u, isWhiteSpace c = true) (hva : ∀ c ∈ v, isWhiteSpace c = true)
    (hw : w ≠ []) (hwa : ∀ c ∈ w, isWhiteSpace c = false) :
    words (x ++ (u ++ (w ++ (v ++ y)))) = words x ++ [w] ++ words y := by
  cases u with
  | nil => exact absurd rfl hu
  | cons c u1 =>
    cases v with
    | nil => exact absurd rfl hv
    | cons d v1 =>
      have hc : isWhiteSpace c = true := hua c (List.mem_cons_self _ _)
      have hd : isWhiteSpace d = true := hva d (List.mem_cons_self _ _)
      have hu1 : ∀ c ∈ u1, isWhiteSpace c = true := fun c hc => hua c (List.mem_cons_of_mem _ hc)
      have hv1 : ∀ c ∈ v1, isWhiteSpace c = true := fun c hc => hva c (List.mem_cons_of_mem _ hc)
      rw [List.cons_append, words_append_sep x c _ hc, words_whiteSpace_append u1 _ hu1,
        List.cons_append, words_append_sep w d _ hd, words_whiteSpace_append v1 _ hv1,
        words_ink w hw hwa]
      simp

theorem words_append_whiteSpace (x : JsString) (c : Char) (hc : isWhiteSpace c = true) :
    words (x ++ [c]) = words x := by
  rw [words_append_sep x c [] hc]
  simp [words]

theorem joinSpace_append_singleton_suffix (ws : List JsString) (r : JsString) :
    r <:+ joinSpace (ws ++ [r]) := by
  cases ws with
  | nil =>
    rw [List.nil_append, joinSpace_singleton]
  | cons w t =>
    rw [joinSpace_append _ _ (by simp) (by simp), joinSpace_singleton]
    exact ⟨joinSpace (w :: t) ++ [' '], by simp⟩

/-- The result in terms of the segments before the remaining text and that text. -/
theorem transliterate_eq_remaining (M : Mapping) (input : JsString) :
    transliterate M input
      = normalise (joinSpace (scanEnd M input).output ++ ' ' :: remainingText M input) := by
  rw [transliterate_eq_outputOf]
  unfold outputOf finishOutput
  by_cases h : (scanEnd M input).lastIndex < input.length
  · simp only [h, if_true]
    cases ho : (scanEnd M input).output with
    | nil =>
      rw [List.nil_append, joinSpace_singleton, joinSpace_nil, List.nil_append,
        normalise_cons_whiteSpace _ _ isWhiteSpace_space]
      rfl
    | cons w t =>
      rw [joinSpace_append _ _ (by simp) (by simp), joinSpace_singleton]
      rfl
  · have hr : remainingText M input = [] :=
      List.drop_eq_nil_iff.mpr (Nat.le_of_not_lt h)
    simp only [h, if_false, hr]
    rw [normalise_eq_words, normalise_eq_words, words_append_whiteSpace _ _ isWhiteSpace_space]


/-! ## Claims -/

/-- C1: an input that contains none of the 25 consonant graphemes is returned with
each maximal run of white space replaced by one space and the ends trimmed,
whatever the mapping table is. -/
theorem transliterate_passthrough (M : Mapping) (input : JsString)
    (h : ∀ x ∈ input, [x] ∉ consonantAlts) :
    transliterate M input = trim (replaceWhiteSpace input) :=
  transliterate_no_consonant M input h

/-- C1 at the input "a  1, ါ း ": a stray vowel and tone, a digit, punctuation
and ASCII text are kept, the double space collapses and the end is trimmed. -/
theorem transliterate_passthrough_witness :
    (∀ x ∈ ['a', ' ', ' ', '1', ',', ' ', 'ါ', ' ', 'း', ' '], [x] ∉ consonantAlts) ∧
      transliterate sampleMapping ['a', ' ', ' ', '1', ',', ' ', 'ါ', ' ', 'း', ' ']
        = ['a', ' ', '1', ',', ' ', 'ါ', ' ', 'း'] :=
  ⟨by decide, (transliterate_passthrough sampleMapping _ (by decide)).trans (by decide)⟩


/-- C2: a syllable consonant, optional medial, vowel other than open-a, optional
tone, all with table entries, is rendered as the normalised concatenation of the
consonant, medial, vowel and tone values, in that order. -/
theorem transliterate_ordinary_syllable (M : Mapping) (c : Char) (m : Option JsString)
    (v : JsString) (t : Option JsString) (kc km kv kt : JsString)
    (hc : [c] ∈ consonantAlts) (hm : slotFrom medialAlts m) (hv : v ∈ vowelAlts)
    (hvo : v ≠ openA) (ht : slotFrom toneAlts t)
    (hcE : M.consonants [c] = some kc) (hmE : entryOf M.medials m km)
    (hvE : M.vowels v = some kv) (htE : entryOf M.tone t kt) :
    transliterate M ([c] ++ captureText m ++ v ++ captureText t)
      = normalise (kc ++ km ++ kv ++ kt) := by
  have hsv : slotFrom vowelAlts (some v) := fun x hx => by cases hx; exact hv
  have h := transliterate_slots M c m (some v) t hc hm hsv ht (by simp)
  have hcT : truthy (some [c]) = (some [c]).isSome := rfl
  have hvT : truthy (some v) = true := truthy_vowel _ hsv
  rw [resolve_eq_parts, slotPart_eq M.consonants (some [c]) hcT, slotPart_eq _ _ (truthy_medial m hm),
    vowelPart_ordinary M _ v t hvT hvo, tonePart_of_vowel M _ t hvT (truthy_tone t ht),
    contribution_of_entryOf _ _ _ hmE, contribution_of_entryOf _ _ _ htE] at h
  simpa [captureText, contribution, toJsString, hcE, hvE] using h

/-- C2 at the syllable "ကှါး" with the sample table: "k", "h", "ar", "h". -/
theorem transliterate_ordinary_syllable_witness :
    transliterate sampleMapping
        (['က'] ++ captureText (some ['ှ']) ++ ['ါ'] ++ captureText (some ['း']))
      = normalise (['k'] ++ ['h'] ++ ['a', 'r'] ++ ['h']) :=
  transliterate_ordinary_syllable sampleMapping 'က' (some ['ှ']) ['ါ'] (some ['း'])
    ['k'] ['h'] ['a', 'r'] ['h'] (by decide) (by decide) (by decide) (by decide) (by decide)
    (by decide) (by decide) (by decide) (by decide)

/-- C3: a consonant of the pattern that has a table entry, standing alone as the
whole input, is rendered as its normalised table value and not as that value
followed by "a". -/
theorem transliterate_bare_consonant (M : Mapping) (c : Char) (kc : JsString)
    (hc : [c] ∈ consonantAlts) (hcE : M.consonants [c] = some kc) :
    transliterate M [c] = normalise kc ∧ transliterate M [c] ≠ normalise (kc ++ ['a']) := by
  have h := transliterate_slots M c none none none hc (by decide) (by decide) (by decide)
    (by simp)
  have hcT : truthy (some [c]) = (some [c]).isSome := rfl
  rw [resolve_eq_parts, slotPart_eq M.consonants (some [c]) hcT, slotPart_eq M.medials none rfl,
    vowelPart_no_vowel M c none rfl, tonePart_no_vowel M none rfl] at h
  have h2 : transliterate M [c] = normalise kc := by
    simpa [captureText, contribution, hcE] using h
  exact ⟨h2, h2 ▸ normalise_append_ink_ne kc 'a' (by decide)⟩

/-- C3 at the input "က" with the sample table: the result is "k", not "ka". -/
theorem transliterate_bare_consonant_witness :
    transliterate sampleMapping ['က'] = normalise ['k'] ∧
      transliterate sampleMapping ['က'] ≠ normalise (['k'] ++ ['a']) :=
  transliterate_bare_consonant sampleMapping 'က' ['k'] (by decide) (by decide)

/-- C4: the docstring promises that a standalone consonant gets an "a" vowel; on
the input "က" with the sample table the code returns "k" and not "ka". -/
theorem standalone_consonant_without_a :
    sampleMapping.consonants ['က'] = some ['k'] ∧
      transliterate sampleMapping ['က'] = ['k'] ∧
      transliterate sampleMapping ['က'] ≠ ['k'] ++ ['a'] := by
  decide

/-- C5 as stated fails: with a table whose generic tone has the entry "x", the
syllable "ကၢ်" is rendered "kahx", not "kah"; the tone step is not skipped. -/
theorem openA_generic_tone_not_skipped :
    toneMapping.consonants ['က'] = some ['k'] ∧
      transliterate toneMapping (['က'] ++ openA ++ genericTone) = ['k', 'a', 'h', 'x'] ∧
      transliterate toneMapping (['က'] ++ openA ++ genericTone)
        ≠ normalise (['k'] ++ ['a', 'h']) := by
  decide

/-- C5, amended: consonant, open-a vowel and generic tone marker are rendered as
the consonant value, the literal "ah" and then the table value of the generic
tone marker (nothing when it has no entry), normalised; the table value of the
open-a vowel is not used. -/
theorem transliterate_openA_generic_tone (M : Mapping) (c : Char) (kc : JsString)
    (hc : [c] ∈ consonantAlts) (hcE : M.consonants [c] = some kc) :
    transliterate M ([c] ++ openA ++ genericTone)
      = normalise (kc ++ ['a', 'h'] ++ contribution M.tone (some genericTone)) := by
  have h := transliterate_slots M c none (some openA) (some genericTone) hc (by decide)
    (by decide) (by decide) (by simp)
  have hcT : truthy (some [c]) = (some [c]).isSome := rfl
  rw [resolve_eq_parts, slotPart_eq M.consonants (some [c]) hcT, slotPart_eq M.medials none rfl,
    vowelPart_openA M (some [c]) (some genericTone) rfl,
    tonePart_of_vowel M (some openA) (some genericTone) rfl rfl] at h
  simpa [captureText, contribution, hcE, openA, genericTone] using h

/-- C5, amended, at "ကၢ်": "kah" with the sample table, which has no entry for
the generic tone marker. -/
theorem transliterate_openA_generic_tone_witness :
    transliterate sampleMapping (['က'] ++ openA ++ genericTone)
      = normalise (['k'] ++ ['a', 'h'] ++ contribution sampleMapping.tone (some genericTone)) :=
  transliterate_openA_generic_tone sampleMapping 'က' ['k'] (by decide) (by decide)

/-- C6 as stated fails: with a table whose generic tone has the entry "x", the
syllable "က်" is rendered "kx", not "kee". -/
theorem generic_tone_entry_replaces_ee :
    toneMapping.consonants ['က'] = some ['k'] ∧
      transliterate toneMapping (['က'] ++ genericTone) = ['k', 'x'] ∧
      transliterate toneMapping (['က'] ++ genericTone) ≠ normalise (['k'] ++ ['e', 'e']) := by
  decide

/-- C6, amended: a consonant followed only by the generic tone marker is rendered
as the consonant value followed by "ee" when the tone table has no entry for the
marker, and by the entry when it has one, normalised. -/
theorem transliterate_generic_tone_only (M : Mapping) (c : Char) (kc : JsString)
    (hc : [c] ∈ consonantAlts) (hcE : M.consonants [c] = some kc) :
    transliterate M ([c] ++ genericTone)
      = normalise (kc ++ match M.tone genericTone with
                         | some kt => kt
                         | none => ['e', 'e']) := by
  have h := transliterate_slots M c none none (some genericTone) hc (by decide)
    (by decide) (by decide) (by decide)
  have hcT : truthy (some [c]) = (some [c]).isSome := rfl
  rw [resolve_eq_parts, slotPart_eq M.consonants (some [c]) hcT, slotPart_eq M.medials none rfl,
    vowelPart_no_vowel M c (some genericTone) rfl,
    tonePart_no_vowel M (some genericTone) rfl] at h
  simpa [captureText, contribution, hcE] using h

/-- C6, amended, at "က်" with the sample table, which has no entry for the
generic tone marker: "kee". -/
theorem transliterate_generic_tone_only_witness :
    transliterate sampleMapping (['က'] ++ genericTone)
      = normalise (['k'] ++ match sampleMapping.tone genericTone with
                            | some kt => kt
                            | none => ['e', 'e']) :=
  transliterate_generic_tone_only sampleMapping 'က' ['k'] (by decide) (by decide)

/-- C7: a consonant followed only by one of the non-generic tone markers "း",
"ၤ", "ာ်", "ၣ်" is rendered as the consonant value, "a" and the tone value (empty
when the tone has no entry), normalised. -/
theorem transliterate_tone_without_vowel (M : Mapping) (c : Char) (t kc : JsString)
    (hc : [c] ∈ consonantAlts) (ht : t ∈ directTones) (hcE : M.consonants [c] = some kc) :
    transliterate M ([c] ++ t)
      = normalise (kc ++ ['a'] ++ contribution M.tone (some t)) := by
  have htA : t ∈ toneAlts := by revert t; decide
  have htg : t ≠ genericTone := by revert t; decide
  have hto : t ≠ openATone := by revert t; decide
  have hst : slotFrom toneAlts (some t) := fun x hx => by cases hx; exact htA
  have h := transliterate_slots M c none none (some t) hc (by decide) (by decide) hst
    (by simpa using hto)
  have hcT : truthy (some [c]) = (some [c]).isSome := rfl
  rw [resolve_eq_parts, slotPart_eq M.consonants (some [c]) hcT, slotPart_eq M.medials none rfl,
    vowelPart_no_vowel M c (some t) (truthy_tone _ hst),
    tonePart_no_vowel M (some t) (truthy_tone _ hst)] at h
  cases hk : M.tone t <;> simpa [captureText, contribution, hcE, htg, hk] using h

/-- C7 at "ကး" with the sample table: "k", "a", and "h" for the tone. -/
theorem transliterate_tone_without_vowel_witness :
    transliterate sampleMapping (['က'] ++ ['း'])
      = normalise (['k'] ++ ['a'] ++ contribution sampleMapping.tone (some ['း'])) :=
  transliterate_tone_without_vowel sampleMapping 'က' ['း'] ['k'] (by decide) (by decide)
    (by decide)

/-- C8: on the input "ကံ" with the sample table, which has no entry for the vowel
"ံ", the code returns "kundefined": the missing vowel entry is rendered as the
text "undefined" instead of contributing nothing; the same happens for the open-a
vowel on the input "ကၢ". -/
theorem vowel_miss_renders_undefined :
    ['ံ'] ∈ vowelAlts ∧ sampleMapping.vowels ['ံ'] = none ∧
      sampleMapping.consonants ['က'] = some ['k'] ∧
      transliterate sampleMapping ['က', 'ံ']
        = ['k', 'u', 'n', 'd', 'e', 'f', 'i', 'n', 'e', 'd'] ∧
      transliterate sampleMapping ['က', 'ံ'] ≠ normalise ['k'] ∧
      sampleMapping.vowels openA = none ∧
      transliterate sampleMapping (['က'] ++ openA)
        = ['k', 'u', 'n', 'd', 'e', 'f', 'i', 'n', 'e', 'd'] := by
  decide

/-- C9: in a syllable whose vowel is not the open-a vowel and has a vowels entry,
a consonant, medial or tone without a table entry contributes the empty string
and every other slot contributes its table value; the output is the normalised
concatenation of these contributions. -/
theorem transliterate_lookup_miss (M : Mapping) (c : Char) (m : Option JsString)
    (v : JsString) (t : Option JsString) (kv : JsString)
    (hc : [c] ∈ consonantAlts) (hm : slotFrom medialAlts m) (hv : v ∈ vowelAlts)
    (hvo : v ≠ openA) (ht : slotFrom toneAlts t) (hvE : M.vowels v = some kv) :
    transliterate M ([c] ++ captureText m ++ v ++ captureText t)
      = normalise (contribution M.consonants (some [c]) ++ contribution M.medials m ++ kv
          ++ contribution M.tone t) := by
  have hsv : slotFrom vowelAlts (some v) := fun x hx => by cases hx; exact hv
  have h := transliterate_slots M c m (some v) t hc hm hsv ht (by simp)
  have hcT : truthy (some [c]) = (some [c]).isSome := rfl
  have hvT : truthy (some v) = true := truthy_vowel _ hsv
  rw [resolve_eq_parts, slotPart_eq M.consonants (some [c]) hcT, slotPart_eq _ _ (truthy_medial m hm),
    vowelPart_ordinary M _ v t hvT hvo, tonePart_of_vowel M _ t hvT (truthy_tone t ht)] at h
  simpa [captureText, toJsString, hvE] using h

/-- C9 at the syllable "ခြါၤ" with the sample table, which has no entry for the
consonant, the medial or the tone: only the vowel value "ar" is left. -/
theorem transliterate_lookup_miss_witness :
    (sampleMapping.consonants ['ခ'] = none ∧ sampleMapping.medials ['ြ'] = none ∧
        sampleMapping.tone ['ၤ'] = none) ∧
      transliterate sampleMapping
          (['ခ'] ++ captureText (some ['ြ']) ++ ['ါ'] ++ captureText (some ['ၤ']))
        = normalise (contribution sampleMapping.consonants (some ['ခ'])
            ++ contribution sampleMapping.medials (some ['ြ']) ++ ['a', 'r']
            ++ contribution sampleMapping.tone (some ['ၤ'])) :=
  ⟨by decide, transliterate_lookup_miss sampleMapping 'ခ' (some ['ြ']) ['ါ'] (some ['ၤ'])
    ['a', 'r'] (by decide) (by decide) (by decide) (by decide) (by decide) (by decide)⟩

/-- C10: whatever the mapping table and the input, the result of `transliterate`
has no white space at its start or end, no two adjacent white-space characters,
and no white-space character other than the space U+0020. -/
theorem transliterate_whitespace_normalised (M : Mapping) (input : JsString) :
    (∀ x ∈ (transliterate M input).head?, isWhiteSpace x = false) ∧
      (∀ x ∈ (transliterate M input).getLast?, isWhiteSpace x = false) ∧
      List.Chain' (fun a b => ¬ (isWhiteSpace a = true ∧ isWhiteSpace b = true))
        (transliterate M input) ∧
      ∀ x ∈ transliterate M input, isWhiteSpace x = true → x = ' ' := by
  unfold transliterate
  exact normalise_shape _

/-! ## Claims on the scan and on the ladder -/

/-- C11: for every table, every text `a` and every text `b` that starts with a
consonant of the pattern, the transliteration of `a ++ b` is the normalised text
of the transliteration of `a`, a space, and the transliteration of `b`; the
segments of `a ++ b` are those of `a` followed by those of `b`. -/
theorem transliterate_append (M : Mapping) (a b : JsString)
    (hb : ∃ c ∈ b.head?, [c] ∈ consonantAlts) :
    transliterate M (a ++ b)
        = normalise (transliterate M a ++ [' '] ++ transliterate M b) ∧
      outputOf M (a ++ b) = outputOf M a ++ outputOf M b := by
  obtain ⟨c, hcb, hc⟩ := hb
  cases b with
  | nil => simp at hcb
  | cons d t =>
    have hd : d = c := by simpa using hcb
    subst hd
    refine ⟨?_, outputOf_append_cons M a d t hc⟩
    rw [transliterate_eq_outputOf, transliterate_eq_outputOf, transliterate_eq_outputOf,
      outputOf_append_cons M a d t hc,
      normalise_joinSpace_append _ _ (outputOf_cons_ne_nil M d t hc)]
    simp

/-- The texts "ကှါ, " and "ကး" with the sample table: no space separates them in
the input, one space separates "khar," and "kah" in the output. -/
theorem transliterate_append_witness :
    transliterate sampleMapping (['က', 'ှ', 'ါ', ','] ++ ['က', 'း'])
        = normalise (transliterate sampleMapping ['က', 'ှ', 'ါ', ','] ++ [' ']
            ++ transliterate sampleMapping ['က', 'း']) ∧
      outputOf sampleMapping (['က', 'ှ', 'ါ', ','] ++ ['က', 'း'])
        = outputOf sampleMapping ['က', 'ှ', 'ါ', ','] ++ outputOf sampleMapping ['က', 'း'] :=
  transliterate_append sampleMapping ['က', 'ှ', 'ါ', ','] ['က', 'း'] ⟨'က', rfl, by decide⟩

/-- C12: two consonants with table entries, separated by a non-empty run of
spaces, a non-empty word without white space and without a grapheme of the
pattern, and another non-empty run of spaces, are rendered as the normalised text
of the first consonant value, a space, the word, a space and the second consonant
value: the words of the first value, the word itself and the words of the second
value, joined by single spaces. -/
theorem transliterate_mixed_text (M : Mapping) (c1 c2 : Char) (k1 k2 w s1 s2 : JsString)
    (hc1 : [c1] ∈ consonantAlts) (hc2 : [c2] ∈ consonantAlts)
    (hE1 : M.consonants [c1] = some k1) (hE2 : M.consonants [c2] = some k2)
    (hw : w ≠ []) (hwa : ∀ c ∈ w, isWhiteSpace c = false)
    (hwp : ∀ c ∈ w, ∀ a ∈ consonantAlts ++ medialAlts ++ vowelAlts ++ toneAlts, c ∉ a)
    (hs1 : s1 ≠ []) (hs1a : ∀ c ∈ s1, c = ' ') (hs2 : s2 ≠ []) (hs2a : ∀ c ∈ s2, c = ' ') :
    transliterate M ([c1] ++ s1 ++ w ++ s2 ++ [c2])
        = normalise (k1 ++ [' '] ++ w ++ [' '] ++ k2) ∧
      transliterate M ([c1] ++ s1 ++ w ++ s2 ++ [c2])
        = joinSpace (words k1 ++ [w] ++ words k2) := by
  have hws1 : ∀ c ∈ s1, isWhiteSpace c = true := fun c hc => by
    rw [hs1a c hc]; exact isWhiteSpace_space
  have hws2 : ∀ c ∈ s2, isWhiteSpace c = true := fun c hc => by
    rw [hs2a c hc]; exact isWhiteSpace_space
  have hrhs : normalise (k1 ++ [' '] ++ w ++ [' '] ++ k2)
      = joinSpace (words k1 ++ [w] ++ words k2) := by
    rw [normalise_eq_words]
    have := words_between k1 [' '] w [' '] k2 (by simp) (by simp)
      (by simpa using isWhiteSpace_space) (by simpa using isWhiteSpace_space) hw hwa
    simpa using congrArg joinSpace this
  have hmain : transliterate M ([c1] ++ s1 ++ w ++ s2 ++ [c2])
      = joinSpace (words k1 ++ [w] ++ words k2) := by
    cases s1 with
    | nil => exact absurd rfl hs1
    | cons d s3 =>
      have hd : d = ' ' := hs1a d (List.mem_cons_self _ _)
      subst hd
      have hgap : ∀ x ∈ s3 ++ w ++ s2, [x] ∉ consonantAlts := by
        intro x hx hmem
        simp only [List.mem_append] at hx
        rcases hx with (hx | hx) | hx
        · have := whiteSpace_not_consonant [x] hmem x (List.mem_singleton_self x)
          rw [hws1 x (List.mem_cons_of_mem _ hx)] at this
          exact absurd this (by decide)
        · exact hwp x hx [x] (by simp [hmem]) (List.mem_singleton_self x)
        · have := whiteSpace_not_consonant [x] hmem x (List.mem_singleton_self x)
          rw [hws2 x hx] at this
          exact absurd this (by decide)
      have hin : [c1] ++ ' ' :: s3 ++ w ++ s2 ++ [c2]
          = (c1 :: ' ' :: (s3 ++ w ++ s2)) ++ c2 :: [] := by simp
      rw [hin, transliterate_eq_outputOf, outputOf_append_cons M _ c2 [] hc2,
        outputOf_consonant_space M c1 _ hc1 hgap, outputOf_consonant M c2 hc2,
        normalise_eq_words]
      have hjoin : joinSpace ([contribution M.consonants (some [c1]), ' ' :: (s3 ++ w ++ s2)]
            ++ [contribution M.consonants (some [c2])])
          = k1 ++ ((' ' :: ' ' :: s3) ++ (w ++ (s2 ++ ' ' :: k2))) := by
        simp [joinSpace_cons_cons, joinSpace_singleton, contribution, hE1, hE2]
      rw [hjoin, words_between k1 (' ' :: ' ' :: s3) w s2 (' ' :: k2) (by simp) hs2 ?_ hws2
        hw hwa, words_cons_whiteSpace _ _ isWhiteSpace_space]
      intro c hc
      simp only [List.mem_cons] at hc
      rcases hc with rfl | hc
      · exact isWhiteSpace_space
      · exact hws1 c (List.mem_cons.mpr hc)
  exact ⟨hmain.trans hrhs.symm, hmain⟩

/-- The input "က  text  ခ" with a table that maps "က" to "k" and "ခ" to "kh":
the result is "k text kh". -/
theorem transliterate_mixed_text_witness :
    transliterate pairMapping (['က'] ++ [' ', ' '] ++ ['t', 'e', 'x', 't'] ++ [' ', ' '] ++ ['ခ'])
        = normalise (['k'] ++ [' '] ++ ['t', 'e', 'x', 't'] ++ [' '] ++ ['k', 'h']) ∧
      transliterate pairMapping
          (['က'] ++ [' ', ' '] ++ ['t', 'e', 'x', 't'] ++ [' ', ' '] ++ ['ခ'])
        = joinSpace (words ['k'] ++ [['t', 'e', 'x', 't']] ++ words ['k', 'h']) :=
  transliterate_mixed_text pairMapping 'က' 'ခ' ['k'] ['k', 'h'] ['t', 'e', 'x', 't'] [' ', ' ']
    [' ', ' '] (by decide) (by decide) (by decide) (by decide) (by decide) (by decide)
    (by decide) (by decide) (by decide) (by decide) (by decide)

/-- C13: when the result of `transliterate` contains no consonant of the pattern,
in particular when it is ASCII, transliterating it again returns it unchanged; and
an ASCII input is returned with its white-space runs collapsed and its ends
trimmed. -/
theorem transliterate_refeed (M : Mapping) :
    (∀ x, (∀ c ∈ transliterate M x, [c] ∉ consonantAlts) →
        transliterate M (transliterate M x) = transliterate M x) ∧
      (∀ x, asciiText (transliterate M x) →
        transliterate M (transliterate M x) = transliterate M x) ∧
      (∀ s, asciiText s → transliterate M s = trim (replaceWhiteSpace s)) := by
  have h1 : ∀ x, (∀ c ∈ transliterate M x, [c] ∉ consonantAlts) →
      transliterate M (transliterate M x) = transliterate M x := by
    intro x hx
    rw [transliterate_no_consonant M _ hx, transliterate_eq_outputOf, normalise_normalise]
  exact ⟨h1, fun x hx => h1 x (asciiText_no_consonant _ hx),
    fun s hs => transliterate_no_consonant M s (asciiText_no_consonant s hs)⟩

/-- The syllable "ကှါ", whose result "khar" is ASCII, and the ASCII text "a  b ". -/
theorem transliterate_refeed_witness :
    transliterate sampleMapping (transliterate sampleMapping ['က', 'ှ', 'ါ'])
        = transliterate sampleMapping ['က', 'ှ', 'ါ'] ∧
      transliterate sampleMapping (transliterate sampleMapping ['က', 'ှ', 'ါ', ' ', ' ', 'z'])
        = transliterate sampleMapping ['က', 'ှ', 'ါ', ' ', ' ', 'z'] ∧
      transliterate sampleMapping ['a', ' ', ' ', 'b', ' ']
        = trim (replaceWhiteSpace ['a', ' ', ' ', 'b', ' ']) :=
  ⟨(transliterate_refeed sampleMapping).1 ['က', 'ှ', 'ါ'] (by decide),
    (transliterate_refeed sampleMapping).2.1 ['က', 'ှ', 'ါ', ' ', ' ', 'z'] (by decide),
    (transliterate_refeed sampleMapping).2.2 ['a', ' ', ' ', 'b', ' '] (by decide)⟩

/-- C14: the comment on the last push says that it preserves the spaces at the end
and the docstring that spaces remain unchanged.  On the input "ကx " with the
sample table the text that remains after the last match is "x " and it is pushed
unchanged as the last segment, but the result is "k x": the remaining text is
not the end of the result and the space at the end of the input is lost. -/
theorem trailing_space_trimmed :
    remainingText sampleMapping ['က', 'x', ' '] = ['x', ' '] ∧
      outputOf sampleMapping ['က', 'x', ' '] = [['k'], ['x', ' ']] ∧
      transliterate sampleMapping ['က', 'x', ' '] = ['k', ' ', 'x'] ∧
      ¬ (remainingText sampleMapping ['က', 'x', ' ']
          <:+ transliterate sampleMapping ['က', 'x', ' ']) := by
  decide

/-- C15: `transliterate` is a total function of the table and the input.  Every
match consumes at least the consonant and splits the text into the match and the
rest, the scan gives the same matches for any fuel of at least the length of the
text, and each match starts at or after the end of the one before.  The empty
input and an input of white space only give the empty string. -/
theorem transliterate_total (M : Mapping) :
    (∀ s pos m r, matchHere s pos = some (m, r) → 1 ≤ m.matched.length ∧ s = m.matched ++ r) ∧
      (∀ fuel s pos, s.length ≤ fuel → execAll fuel s pos = execAll s.length s pos) ∧
      (∀ input, List.Chain' (fun a b : SyllableMatch => a.offset + a.matched.length ≤ b.offset)
        (regexMatches input)) ∧
      transliterate M [] = [] ∧
      (∀ input, (∀ c ∈ input, isWhiteSpace c = true) → transliterate M input = []) := by
  refine ⟨fun s pos m r h => ⟨matchHere_length_pos s pos m r h,
      (matchHere_spec s pos m r h).2.2.2.2.1⟩,
    fun fuel s pos h => execAll_fuel fuel s.length s pos h (Nat.le_refl _),
    fun input => (execAll_ordered input.length input 0).2, rfl, fun input h => ?_⟩
  rw [transliterate_no_consonant M input, normalise_all_whiteSpace input h]
  intro x hx hmem
  have := whiteSpace_not_consonant [x] hmem x (List.mem_singleton_self x)
  rw [h x hx] at this
  exact absurd this (by decide)

/-- The text "က ခါ" and the white-space input " \t": match lengths, fuel 9
against the length 4, and the two results. -/
theorem transliterate_total_witness :
    (1 ≤ ['ခ', 'ါ'].length ∧ ['ခ', 'ါ', ' '] = ['ခ', 'ါ'] ++ [' ']) ∧
      execAll 9 ['က', ' ', 'ခ', 'ါ'] 0 = execAll ['က', ' ', 'ခ', 'ါ'].length ['က', ' ', 'ခ', 'ါ'] 0 ∧
      transliterate sampleMapping [' ', '\t'] = [] :=
  ⟨(transliterate_total sampleMapping).1 ['ခ', 'ါ', ' '] 2
      { matched := ['ခ', 'ါ'], consonant := some ['ခ'], medial := none, vowel := some ['ါ'],
        tone := none, offset := 2 } [' '] (by decide),
    (transliterate_total sampleMapping).2.1 9 ['က', ' ', 'ခ', 'ါ'] 0 (by decide),
    (transliterate_total sampleMapping).2.2.2.2 [' ', '\t'] (by decide)⟩

/-- C16: when the open-a vowel has a vowels entry, a consonant with a table entry
followed only by the open-a vowel is rendered as the consonant value followed by
the table value of the open-a vowel, normalised, with no "a", "ah" or "ee". -/
theorem transliterate_openA_no_tone (M : Mapping) (c : Char) (kc kv : JsString)
    (hc : [c] ∈ consonantAlts) (hcE : M.consonants [c] = some kc)
    (hvE : M.vowels openA = some kv) :
    transliterate M ([c] ++ openA) = normalise (kc ++ kv) := by
  have h := transliterate_slots M c none (some openA) none hc (by decide) (by decide)
    (by decide) (by simp)
  have hcT : truthy (some [c]) = (some [c]).isSome := rfl
  rw [resolve_eq_parts, slotPart_eq M.consonants (some [c]) hcT, slotPart_eq M.medials none rfl,
    vowelPart_openA M (some [c]) none rfl, tonePart_of_vowel M (some openA) none rfl rfl] at h
  have hvE2 : M.vowels ['ၢ'] = some kv := hvE
  simpa [captureText, contribution, toJsString, hcE, hvE2, openA] using h

/-- The syllable "ကၢ" with a table that maps the open-a vowel to "aw": "k", "aw". -/
theorem transliterate_openA_no_tone_witness :
    transliterate openAMapping (['က'] ++ openA) = normalise (['k'] ++ ['a', 'w']) :=
  transliterate_openA_no_tone openAMapping 'က' ['k'] ['a', 'w'] (by decide) (by decide)
    (by decide)

/-- C17: the last branch of the vowel ladder carries the comment "If there's no
tone" but does not test the tone.  On the input "ကၢး" with a table that maps the
open-a vowel to "aw" and the tone "း" to "h" the code returns "kawh": the value
of the open-a vowel is appended although a tone follows, where the claim gives
"kh". -/
theorem openA_value_appended_before_tone :
    openAMapping.consonants ['က'] = some ['k'] ∧ openAMapping.vowels openA = some ['a', 'w'] ∧
      openAMapping.tone ['း'] = some ['h'] ∧
      transliterate openAMapping (['က'] ++ openA ++ ['း']) = ['k', 'a', 'w', 'h'] ∧
      transliterate openAMapping (['က'] ++ openA ++ ['း']) ≠ normalise (['k'] ++ ['h']) := by
  decide

/-- C18 as stated fails: the guards of the code are not pairwise exclusive.  For an
open-a vowel followed by the generic tone marker the guard of branch A and the
guard of branch D both hold. -/
theorem guardA_guardD_overlap :
    guardA (some openA) (some genericTone) = true ∧ guardD (some openA) = true := by
  decide

/-- C18, amended: for all slot values and every table the callback, whose ladder
checks the branches in the order B, A, C, D, appends the same text as the same
branches checked in the order A, B, C, D; the guards of A, B and C are pairwise
exclusive and the guards of B and C exclude the guard of D. -/
theorem vowel_ladder_order (M : Mapping) (consonant medial vowel tone : Option JsString) :
    resolve M consonant medial vowel tone
        = slotPart M.consonants consonant ++ slotPart M.medials medial
            ++ vowelPartSpecOrder M consonant vowel tone ++ tonePart M vowel tone ∧
      ¬ (guardA vowel tone = true ∧ guardB vowel = true) ∧
      ¬ (guardA vowel tone = true ∧ guardC consonant vowel tone = true) ∧
      ¬ (guardB vowel = true ∧ guardC consonant vowel tone = true) ∧
      ¬ (guardB vowel = true ∧ guardD vowel = true) ∧
      ¬ (guardC consonant vowel tone = true ∧ guardD vowel = true) := by
  refine ⟨?_, ?_, ?_, ?_, ?_, ?_⟩
  · rw [resolve_eq_parts]
    congr 2
    unfold vowelPart vowelPartSpecOrder guardA guardB guardC guardD
    by_cases hv : vowel = some openA
    · subst hv
      simp
    · have hv2 : (vowel == some openA) = false := by simpa using hv
      simp [hv, hv2]
  · unfold guardA guardB
    by_cases hv : vowel = some openA <;> simp [hv]
  · unfold guardA guardC
    cases truthy vowel <;> simp
  · unfold guardB guardC
    cases truthy vowel <;> simp
  · unfold guardB guardD
    by_cases hv : vowel = some openA <;> simp [hv]
  · unfold guardC guardD
    cases truthy vowel <;> simp

/-- C19: for a consonant and an optional medial followed by the two characters
"ၢ်", the pattern fills the vowel slot with "ၢ" and the tone slot with "်"; the
rendering is the same for two tables that differ only in the tone entry of "ၢ်";
and in every match of every input a tone slot equal to "ၢ်" comes with a filled
vowel slot. -/
theorem openATone_never_after_onset (M N : Mapping) (c : Char) (m : Option JsString)
    (hc : [c] ∈ consonantAlts) (hm : slotFrom medialAlts m)
    (hcons : N.consonants = M.consonants) (hmed : N.medials = M.medials)
    (hvow : N.vowels = M.vowels) (htone : ∀ k, k ≠ openATone → N.tone k = M.tone k) :
    regexMatches ([c] ++ captureText m ++ openATone)
        = [{ matched := [c] ++ captureText m ++ openATone, consonant := some [c], medial := m,
             vowel := some openA, tone := some genericTone, offset := 0 }] ∧
      transliterate N ([c] ++ captureText m ++ openATone)
        = transliterate M ([c] ++ captureText m ++ openATone) ∧
      ∀ input, ∀ x ∈ regexMatches input, x.tone = some openATone → x.vowel.isSome = true := by
  have hmatch := matchHere_slots c m (some openA) (some genericTone) 0 hc hm (by decide)
    (by decide) (by simp)
  have hin : [c] ++ captureText m ++ openATone
      = c :: (captureText m ++ (captureText (some openA) ++ captureText (some genericTone))) := by
    simp [captureText, openATone, openA, genericTone]
  have hres : ∀ T : Mapping, transliterate T ([c] ++ captureText m ++ openATone)
      = normalise (resolve T (some [c]) m (some openA) (some genericTone)) := by
    intro T
    rw [hin]
    exact transliterate_slots T c m (some openA) (some genericTone) hc hm (by decide)
      (by decide) (by simp)
  refine ⟨?_, ?_, ?_⟩
  · rw [hin]
    unfold regexMatches
    simp only [List.length_cons, execAll, hmatch]
    rw [List.drop_of_length_le (by simp), execAll_nil]
  · rw [hres N, hres M]
    have hg : N.tone genericTone = M.tone genericTone := htone genericTone (by decide)
    simp only [resolve_eq_parts, slotPart, vowelPart, tonePart, lookup, toJsString, hcons, hmed,
      hvow, hg]
  · intro input x hx hxt
    obtain ⟨s1, pos1, r, hs⟩ := mem_execAll _ _ _ _ hx
    exact openATone_vowel_filled s1 pos1 x r hs hxt

/-- The syllable "ကှၢ်" with two tables that differ only in the tone entry of "ၢ်". -/
theorem openATone_never_after_onset_witness :
    regexMatches (['က'] ++ captureText (some ['ှ']) ++ openATone)
        = [{ matched := ['က'] ++ captureText (some ['ှ']) ++ openATone, consonant := some ['က'],
             medial := some ['ှ'], vowel := some openA, tone := some genericTone,
             offset := 0 }] ∧
      transliterate openAToneMapping (['က'] ++ captureText (some ['ှ']) ++ openATone)
        = transliterate sampleMapping (['က'] ++ captureText (some ['ှ']) ++ openATone) ∧
      ∀ input, ∀ x ∈ regexMatches input, x.tone = some openATone → x.vowel.isSome = true :=
  openATone_never_after_onset sampleMapping openAToneMapping 'က' (some ['ှ']) (by decide)
    (by decide) rfl rfl rfl (fun k hk => by simp [openAToneMapping, hk])

end Karen
